import Mathlib

/-!
Verification of the LVGL animation core (`src/misc/lv_anim.c`).

The registry of live animations is modelled as an explicit state value
(`AnimState`), records as `AnimRec`, and the user callbacks as data: each
callback identity is a `Nat`, and an environment `Env` gives, for each
callback identity, the list of reentrant `lv_anim_del` calls it performs
when invoked (the hazard the scheduler has to survive) together with the
value returned by a `get_value_cb`.  Every observable action (list removal,
callback invocation, record release, ...) is recorded in an event trace so
that ordering claims can be stated.  C `int32_t` arithmetic is modelled on
`Int` with explicit two's-complement wraparound in the pure value functions
(path evaluators, speed conversion) where the claims quantify over the full
signed range.
-/

namespace LvAnim

/-- Two's-complement wrap of an integer into the signed 32-bit range
`[-2^31, 2^31)`, which is what C `int32_t` arithmetic does on overflow on
the targets LVGL supports. -/
def wrap32 (x : Int) : Int := (x + 2 ^ 31) % 2 ^ 32 - 2 ^ 31

/-- Conversion of a signed value to C `uint32_t` (reduction mod `2^32`). -/
def u32 (x : Int) : Nat := (x % 2 ^ 32).toNat

/-- Arithmetic shift right by `k` of a signed 32-bit value: floor division
by `2^k`, the behaviour of `>>` on negative `int32_t` on LVGL's targets. -/
def asr (x : Int) (k : Nat) : Int := Int.fdiv x (2 ^ k)

/-- Modelled from the spec: `lv_map` (declared in `lv_math.h`; `lv_math.c`
is not under `src/`).  Section 4.4 of the spec has the path evaluators
"proportionally map" the elapsed/duration ratio onto an output range in
fixed point; the mapping clamps at the two input bounds and otherwise
interpolates linearly with C truncating integer division. -/
def lv_map (x min_in max_in min_out max_out : Int) : Int :=
  if x ≥ max_in then max_out
  else if x ≤ min_in then min_out
  else Int.tdiv ((x - min_in) * (max_out - min_out)) (max_in - min_in) + min_out

/-- Modelled from the spec: `lv_bezier3` (from `lv_math.c`, not under
`src/`).  Section 4.4 describes the bounce path as "composed with a bezier
ease"; this is the cubic Bernstein evaluation in the `LV_BEZIER_VAL_MAX =
1024` fixed-point domain, every intermediate product reduced mod `2^32` as
C `uint32_t` arithmetic is. -/
def lv_bezier3 (t u0 u1 u2 u3 : Nat) : Nat :=
  let t_rem := (1024 - t) % 2 ^ 32
  let t_rem2 := t_rem * t_rem % 2 ^ 32 / 2 ^ 10
  let t_rem3 := t_rem2 * t_rem % 2 ^ 32 / 2 ^ 10
  let t2 := t * t % 2 ^ 32 / 2 ^ 10
  let t3 := t2 * t % 2 ^ 32 / 2 ^ 10
  let v1 := t_rem3 * u0 % 2 ^ 32 / 2 ^ 10
  let v2 := 3 * t_rem2 * t * u1 % 2 ^ 32 / 2 ^ 20
  let v3 := 3 * t_rem * t2 * u2 % 2 ^ 32 / 2 ^ 20
  let v4 := t3 * u3 % 2 ^ 32 / 2 ^ 10
  (v1 + v2 + v3 + v4) % 2 ^ 32

/-- Modelled from the spec: the `repeat_cnt` sentinel "meaning forever"
(`LV_ANIM_REPEAT_INFINITE` from `lv_anim.h`, whose header is not under
`src/`); the all-ones `uint32_t` value. -/
def LV_ANIM_REPEAT_INFINITE : Nat := 0xFFFFFFFF

/-- The interpolation curve selected by a record's `path_cb` function
pointer.  Only the curves the claims mention are embedded; each variant
dispatches to the corresponding `lv_anim_path_*` function from the
source. -/
inductive PathKind where
  | linear
  | step
  | bounce
deriving DecidableEq, Repr

/-- One animation record (`lv_anim_t`).  Pointers become `Option Nat`
identities (`none` is `NULL`); the record's own address is `id`.  Callback
fields hold the callback's identity; its behaviour is given by the ambient
`Env`.  Timing fields are C `uint32_t`/`int32_t`; they are modelled on
`Nat`/`Int` (the structural claims do not turn on their overflow, unlike
the path arithmetic which wraps explicitly). -/
structure AnimRec where
  id : Nat
  var : Option Nat
  exec_cb : Option Nat
  start_cb : Option Nat
  ready_cb : Option Nat
  deleted_cb : Option Nat
  get_value_cb : Option Nat
  path_cb : PathKind
  start_value : Int
  end_value : Int
  current_value : Int
  time : Int
  act_time : Int
  playback_delay : Nat
  playback_time : Int
  playback_now : Bool
  repeat_delay : Nat
  repeat_cnt : Nat
  early_apply : Bool
  run_round : Bool
  start_cb_called : Bool
  last_timer_run : Nat
deriving DecidableEq, Repr

/-- `lv_anim_init`: the default template (`memzero` plus the explicit
defaults set by the source: `time = 500`, `start_value = 0`,
`end_value = 100`, `repeat_cnt = 1`, linear path, `early_apply = 1`). -/
def lv_anim_init : AnimRec :=
  { id := 0, var := none, exec_cb := none, start_cb := none, ready_cb := none
    deleted_cb := none, get_value_cb := none, path_cb := .linear
    start_value := 0, end_value := 100, current_value := 0
    time := 500, act_time := 0
    playback_delay := 0, playback_time := 0, playback_now := false
    repeat_delay := 0, repeat_cnt := 1
    early_apply := true, run_round := false, start_cb_called := false
    last_timer_run := 0 }

/-- `lv_anim_path_linear`: step = `lv_map(act_time, 0, time, 0, 1024)`,
then `new_value = ((step * (end - start)) >> 10) + start`, every operation
in `int32_t`. -/
def lv_anim_path_linear (a : AnimRec) : Int :=
  let step := wrap32 (lv_map a.act_time 0 a.time 0 1024)
  let new_value := asr (wrap32 (step * wrap32 (a.end_value - a.start_value))) 10
  wrap32 (new_value + a.start_value)

/-- `lv_anim_path_step`: `end_value` once `act_time >= time`, otherwise
`start_value`. -/
def lv_anim_path_step (a : AnimRec) : Int :=
  if a.act_time ≥ a.time then a.end_value else a.start_value

/-- `lv_anim_path_bounce`: the 5-segment piecewise remap of the normalized
time `t` (segment bounds 408/614/819/921, amplitude divisors 20/40),
composed with `lv_bezier3(t, 1024, 800, 500, 0)` and applied from
`end_value` downward; all arithmetic in `int32_t`. -/
def lv_anim_path_bounce (a : AnimRec) : Int :=
  let t0 := wrap32 (lv_map a.act_time 0 a.time 0 1024)
  let diff0 := wrap32 (a.end_value - a.start_value)
  let p :=
    if t0 < 408 then
      (asr (wrap32 (t0 * 2500)) 10, diff0)
    else if 408 ≤ t0 ∧ t0 < 614 then
      (wrap32 (1024 - wrap32 ((t0 - 408) * 5)), Int.tdiv diff0 20)
    else if 614 ≤ t0 ∧ t0 < 819 then
      (wrap32 ((t0 - 614) * 5), Int.tdiv diff0 20)
    else if 819 ≤ t0 ∧ t0 < 921 then
      (wrap32 (1024 - wrap32 ((t0 - 819) * 10)), Int.tdiv diff0 40)
    else if 921 ≤ t0 ∧ t0 ≤ 1024 then
      (wrap32 ((t0 - 921) * 10), Int.tdiv diff0 40)
    else (t0, diff0)
  let tc := if 1024 < p.1 then 1024 else p.1
  let tc := if tc < 0 then 0 else tc
  let step := wrap32 (lv_bezier3 tc.toNat 1024 800 500 0)
  let new_value := asr (wrap32 (step * p.2)) 10
  wrap32 (a.end_value - new_value)

/-- Dispatch of a record's `path_cb`. -/
def evalPath : PathKind → AnimRec → Int
  | .linear, a => lv_anim_path_linear a
  | .step, a => lv_anim_path_step a
  | .bounce, a => lv_anim_path_bounce a

/-- `lv_anim_speed_to_time`: `d = LV_ABS(start - end)` (all `int32_t`, then
converted to `uint32_t`), `time = (d * 1000) / speed` in `uint32_t`, bumped
to 1 if it comes out 0. -/
def lv_anim_speed_to_time (speed : Nat) (start endv : Int) : Nat :=
  let diff := wrap32 (start - endv)
  let d : Nat := u32 (if 0 < diff then diff else wrap32 (-diff))
  let time := d * 1000 % 2 ^ 32 / speed
  if time = 0 then 1 else time

/-! ### Arithmetic helper lemmas -/

theorem wrap32_eq_self {x : Int} (h1 : -2 ^ 31 ≤ x) (h2 : x < 2 ^ 31) :
    wrap32 x = x := by
  unfold wrap32
  have h0 : (0 : Int) ≤ x + 2 ^ 31 := by linarith
  have hlt : x + 2 ^ 31 < 2 ^ 32 := by norm_num at h2 ⊢; linarith
  rw [Int.emod_eq_of_lt h0 hlt]
  ring

theorem wrap32_zero : wrap32 0 = 0 := by decide

/-! ### C5 — linear path endpoints -/

theorem lv_map_at_min {min_in max_in min_out max_out : Int}
    (h : min_in < max_in) :
    lv_map min_in min_in max_in min_out max_out = min_out := by
  unfold lv_map
  rw [if_neg (by omega), if_pos (le_refl _)]

theorem lv_map_at_max (min_in max_in min_out max_out : Int) :
    lv_map max_in min_in max_in min_out max_out = max_out := by
  unfold lv_map
  rw [if_pos (le_refl _)]

/-- C5 (counterexample): the claim quantifies over "any signed
start_value/end_value", but `step * (end_value - start_value)` is computed
in `int32_t`; with `start_value = 0`, `end_value = 2^30` the product
`1024 * 2^30` wraps to 0, so at `elapsed = duration` the linear path
returns 0, not `end_value`. -/
theorem C5_linear_endpoint_counterexample :
    lv_anim_path_linear
      { lv_anim_init with time := 1, act_time := 1,
                          start_value := 0, end_value := 2 ^ 30 } ≠
    (2 ^ 30 : Int) := by decide

/-- C5 (amended): for every record with `duration > 0`, in-range signed
32-bit `start_value`/`end_value`, and `|end_value - start_value| ≤ 2097151`
(so that `1024 * (end - start)` cannot overflow `int32_t`), the linear path
function evaluated at `elapsed = 0` returns exactly `start_value` and at
`elapsed = duration` returns exactly `end_value`. -/
theorem C5_linear_endpoints (a : AnimRec)
    (hdur : 0 < a.time)
    (hs1 : -2 ^ 31 ≤ a.start_value) (hs2 : a.start_value < 2 ^ 31)
    (he1 : -2 ^ 31 ≤ a.end_value) (he2 : a.end_value < 2 ^ 31)
    (hdiff : (a.end_value - a.start_value).natAbs ≤ 2097151) :
    lv_anim_path_linear { a with act_time := 0 } = a.start_value ∧
    lv_anim_path_linear { a with act_time := a.time } = a.end_value := by
  have hd1 : -2 ^ 31 ≤ a.end_value - a.start_value := by omega
  have hd2 : a.end_value - a.start_value < 2 ^ 31 := by omega
  constructor
  · show wrap32 (asr (wrap32 (wrap32 (lv_map 0 0 a.time 0 1024) *
      wrap32 (a.end_value - a.start_value))) 10 + a.start_value) = a.start_value
    rw [lv_map_at_min hdur, wrap32_zero, zero_mul, wrap32_zero]
    show wrap32 (Int.fdiv 0 (2 ^ 10) + a.start_value) = a.start_value
    rw [Int.zero_fdiv, zero_add]
    exact wrap32_eq_self hs1 hs2
  · show wrap32 (asr (wrap32 (wrap32 (lv_map a.time 0 a.time 0 1024) *
      wrap32 (a.end_value - a.start_value))) 10 + a.start_value) = a.end_value
    have hprod1 : -2 ^ 31 ≤ 1024 * (a.end_value - a.start_value) := by omega
    have hprod2 : 1024 * (a.end_value - a.start_value) < 2 ^ 31 := by omega
    have e1 : lv_map a.time 0 a.time 0 1024 = 1024 := lv_map_at_max _ _ _ _
    have e2 : wrap32 (1024 : Int) = 1024 := by decide
    have e3 : wrap32 (a.end_value - a.start_value) = a.end_value - a.start_value :=
      wrap32_eq_self hd1 hd2
    have e4 : wrap32 (1024 * (a.end_value - a.start_value)) =
        1024 * (a.end_value - a.start_value) := wrap32_eq_self hprod1 hprod2
    rw [e1, e2, e3, e4]
    show wrap32 (Int.fdiv (1024 * (a.end_value - a.start_value)) (2 ^ 10) +
      a.start_value) = a.end_value
    rw [show ((2 : Int) ^ 10) = 1024 by norm_num,
        Int.mul_fdiv_cancel_left _ (by norm_num)]
    have e5 : a.end_value - a.start_value + a.start_value = a.end_value := by ring
    rw [e5]
    exact wrap32_eq_self he1 he2

/-- Witness for C5's amended theorem at a concrete record. -/
theorem C5_linear_endpoints_witness :
    lv_anim_path_linear { lv_anim_init with time := 1000, act_time := 0 } = 0 ∧
    lv_anim_path_linear { lv_anim_init with time := 1000, act_time := 1000 } = 100 := by
  have h := C5_linear_endpoints { lv_anim_init with time := 1000 }
    (by decide) (by decide) (by decide) (by decide) (by decide) (by decide)
  exact h

/-! ### C7 — speed-to-time conversion -/

/-- C7 (counterexample): the claim says the conversion returns
`|start - end| * 1000 / speed` for every `speed > 0`; with `speed = 2000`,
`start = 0`, `end = 1` that formula gives 0, but the source bumps a zero
result to 1. -/
theorem C7_speed_to_time_counterexample :
    lv_anim_speed_to_time 2000 0 1 ≠ ((0 : Int) - 1).natAbs * 1000 / 2000 := by
  decide

/-- C7 (amended): for every `speed > 0` and signed `start`/`end` whose
distance satisfies `|start - end| * 1000 < 2^32` (no `uint32_t` overflow),
the conversion returns `|start - end| * 1000 / speed` except that a zero
result is bumped to 1; in particular `speed = 50`, `start = 0`,
`end = 1000` yields 20000 ms. -/
theorem C7_speed_to_time (speed : Nat) (start endv : Int)
    (hspeed : 0 < speed)
    (hrange : (start - endv).natAbs * 1000 < 2 ^ 32) :
    lv_anim_speed_to_time speed start endv =
      max 1 ((start - endv).natAbs * 1000 / speed) := by
  have habs : (start - endv).natAbs < 2 ^ 31 := by omega
  have h1 : -2 ^ 31 ≤ start - endv := by omega
  have h2 : start - endv < 2 ^ 31 := by omega
  have hd : u32 (if 0 < wrap32 (start - endv) then wrap32 (start - endv)
      else wrap32 (-wrap32 (start - endv))) = (start - endv).natAbs := by
    rw [wrap32_eq_self h1 h2]
    by_cases hpos : 0 < start - endv
    · rw [if_pos hpos]
      unfold u32
      rw [Int.emod_eq_of_lt (by omega) (by omega)]
      omega
    · rw [if_neg hpos, wrap32_eq_self (by omega) (by omega)]
      unfold u32
      rw [Int.emod_eq_of_lt (by omega) (by omega)]
      omega
  show (if u32 _ * 1000 % 2 ^ 32 / speed = 0 then 1
        else u32 _ * 1000 % 2 ^ 32 / speed) = _
  rw [hd, Nat.mod_eq_of_lt hrange]
  rcases Nat.eq_zero_or_pos ((start - endv).natAbs * 1000 / speed) with h0 | h0
  · rw [if_pos h0, h0]
    omega
  · rw [if_neg (by omega)]
    omega

/-- Witness for C7's amended theorem: the spec's own scenario,
`speed-to-time(50, 0, 1000) = 20000`. -/
theorem C7_speed_to_time_witness :
    lv_anim_speed_to_time 50 0 1000 = 20000 := by
  have h := C7_speed_to_time 50 0 1000 (by decide) (by decide)
  exact h.trans (by decide)

/-! ### C8 — bounce overshoot -/

/-- A record exhibiting C8's existential: duration 1024, range 0→4000000,
sampled at `elapsed = 210`. -/
def bounceWitness : AnimRec :=
  { lv_anim_init with path_cb := .bounce, time := 1024, act_time := 210,
                      start_value := 0, end_value := 4000000 }

/-- C8: for some record with `duration > 0` and `end_value ≠ start_value`,
at some elapsed value strictly between 0 and duration, the bounce path
output lies strictly beyond `end_value` on the far side from `start_value`
(here via `int32_t` wraparound of `step * diff`), and at
`elapsed = duration` it settles at exactly `end_value`. -/
theorem C8_bounce_overshoot :
    0 < bounceWitness.time ∧
    bounceWitness.end_value ≠ bounceWitness.start_value ∧
    0 < bounceWitness.act_time ∧
    bounceWitness.act_time < bounceWitness.time ∧
    bounceWitness.start_value < bounceWitness.end_value ∧
    bounceWitness.end_value < lv_anim_path_bounce bounceWitness ∧
    lv_anim_path_bounce { bounceWitness with act_time := bounceWitness.time } =
      bounceWitness.end_value := by
  refine ⟨by decide, by decide, by decide, by decide, by decide, ?_, ?_⟩ <;> decide

/-! ### Registry model -/

/-- One reentrant `lv_anim_del(var, exec_cb)` call performed by a user
callback (`none` is the NULL wildcard in either position). -/
abbrev DelOp := Option Nat × Option Nat

/-- Behaviour of the user callbacks: `cbOps c` is the list of reentrant
`lv_anim_del` calls the callback with identity `c` performs when invoked;
`getValue c` is the offset a `get_value_cb` returns. -/
structure Env where
  cbOps : Nat → List DelOp
  getValue : Nat → Int

/-- Observable events of a registry operation, in invocation order. -/
inductive Ev where
  | removed (id : Nat)
  | listChanged
  | readyCb (id : Nat)
  | deletedCb (id : Nat)
  | freed (id : Nat)
  | startCb (id : Nat)
  | getValueCb (id : Nat)
  | execCb (id : Nat) (var : Option Nat) (value : Int)
  | inserted (id : Nat)
  | advanced (id : Nat)
deriving DecidableEq, Repr

/-- The process-wide animation state: the registry list (head first), the
structural-change flag, the run-parity flag, and the pause state of the
periodic timer. -/
structure AnimState where
  anim_ll : List AnimRec
  anim_list_changed : Bool
  anim_run_round : Bool
  timer_paused : Bool
deriving DecidableEq, Repr

def idsOf (l : List AnimRec) : List Nat := l.map (·.id)

/-- `_lv_ll_remove` of the node with identity `id`. -/
def removeId (id : Nat) (l : List AnimRec) : List AnimRec :=
  l.filter (fun r => r.id != id)

/-- In-place mutation of the record with identity `a.id`. -/
def updRec (a : AnimRec) (l : List AnimRec) : List AnimRec :=
  l.map (fun r => if r.id = a.id then a else r)

/-- The match test of `lv_anim_del`:
`(a->var == var || var == NULL) && (a->exec_cb == exec_cb || exec_cb == NULL)`. -/
def matchesDel (var cb : Option Nat) (r : AnimRec) : Bool :=
  (r.var == var || var == none) && (r.exec_cb == cb || cb == none)

/-- `anim_mark_list_change`: raise the structural-change flag and pause or
resume the periodic timer according to registry emptiness. -/
def markChange (s : AnimState) : AnimState :=
  let s := { s with anim_list_changed := true }
  if s.anim_ll.isEmpty then { s with timer_paused := true }
  else { s with timer_paused := false }

mutual

/-- The loop of `lv_anim_del`, the cursor given as the identities still to
be visited; on each removal the cursor restarts from the registry head
(`a = del ? _lv_ll_get_head(...) : _lv_ll_get_next(...)`).  `fuel` bounds
the depth of reentrant recursion; `none` means it ran out. -/
def delAux (env : Env) : Nat → Option Nat → Option Nat → List Nat → AnimState →
    Bool → Option (AnimState × List Ev × Bool)
  | 0, _, _, _, _, _ => none
  | _ + 1, _, _, [], s, delAny => some (s, [], delAny)
  | fuel + 1, var, cb, id :: rest, s, delAny =>
    match s.anim_ll.find? (fun r => r.id == id) with
    | none => delAux env fuel var cb rest s delAny
    | some r =>
      if matchesDel var cb r then
        let s1 : AnimState := { s with anim_ll := removeId id s.anim_ll }
        match r.deleted_cb with
        | some c =>
          match runDelOps env fuel (env.cbOps c) s1 with
          | none => none
          | some (s2, tr2) =>
            let s3 := markChange s2
            match delAux env fuel var cb (idsOf s3.anim_ll) s3 true with
            | none => none
            | some (s4, tr4, b) =>
              some (s4, Ev.removed id :: Ev.deletedCb id :: tr2 ++
                        Ev.freed id :: Ev.listChanged :: tr4, b)
        | none =>
          let s3 := markChange s1
          match delAux env fuel var cb (idsOf s3.anim_ll) s3 true with
          | none => none
          | some (s4, tr4, b) =>
            some (s4, Ev.removed id :: Ev.freed id :: Ev.listChanged :: tr4, b)
      else delAux env fuel var cb rest s delAny

/-- Run the reentrant `lv_anim_del` calls performed by a callback body. -/
def runDelOps (env : Env) : Nat → List DelOp → AnimState →
    Option (AnimState × List Ev)
  | 0, _, _ => none
  | _ + 1, [], s => some (s, [])
  | fuel + 1, op :: ops, s =>
    match delAux env fuel op.1 op.2 (idsOf s.anim_ll) s false with
    | none => none
    | some (s1, tr1, _) =>
      match runDelOps env fuel ops s1 with
      | none => none
      | some (s2, tr2) => some (s2, tr1 ++ tr2)

end

/-- `lv_anim_del`: walk the registry from the head. -/
def lv_anim_del (env : Env) (fuel : Nat) (var cb : Option Nat) (s : AnimState) :
    Option (AnimState × List Ev × Bool) :=
  delAux env fuel var cb (idsOf s.anim_ll) s false

/-- `lv_anim_count_running` (a `uint16_t` counter). -/
def lv_anim_count_running (s : AnimState) : Nat := s.anim_ll.length % 2 ^ 16

/-- Invoke an optional callback: emit its event, then run its reentrant
deletions. -/
def runCb (env : Env) (fuel : Nat) (cb : Option Nat) (ev : Ev) (s : AnimState) :
    Option (AnimState × List Ev) :=
  match cb with
  | none => some (s, [])
  | some c =>
    match runDelOps env fuel (env.cbOps c) s with
    | none => none
    | some (s', tr) => some (s', ev :: tr)

/-- The decrement at the head of `anim_ready_handler`: at the end of a
forward run, a finite nonzero `repeat_cnt` is decremented. -/
def decRepeat (a : AnimRec) : AnimRec :=
  if a.playback_now = false ∧ 0 < a.repeat_cnt ∧
     a.repeat_cnt ≠ LV_ANIM_REPEAT_INFINITE then
    { a with repeat_cnt := a.repeat_cnt - 1 }
  else a

/-- The restart performed by `anim_ready_handler` when the record is not
terminal: reset `act_time` to `-repeat_delay` (or `-playback_delay` when
about to turn back), and in playback mode toggle `playback_now` and swap
the value and duration pairs. -/
def handlerRestartRec (a : AnimRec) : AnimRec :=
  let a1 := { a with act_time := -(a.repeat_delay : Int) }
  if a.playback_time ≠ 0 then
    let a1 := if a.playback_now = false then
        { a1 with act_time := -(a.playback_delay : Int) } else a1
    { a1 with playback_now := !a.playback_now,
              start_value := a.end_value, end_value := a.start_value,
              time := a.playback_time, playback_time := a.time }
  else a1

/-- `anim_ready_handler`: decide repeat/playback/termination for a record
whose `act_time` reached `time`. -/
def anim_ready_handler (env : Env) (fuel : Nat) (a0 : AnimRec) (s : AnimState) :
    Option (AnimState × List Ev) :=
  let a := decRepeat a0
  if a.repeat_cnt = 0 ∧ (a.playback_time = 0 ∨ a.playback_now = true) then
    let s1 : AnimState := { s with anim_ll := removeId a.id s.anim_ll }
    let s2 := markChange s1
    match runCb env fuel a.ready_cb (Ev.readyCb a.id) s2 with
    | none => none
    | some (s3, tr3) =>
      match runCb env fuel a.deleted_cb (Ev.deletedCb a.id) s3 with
      | none => none
      | some (s4, tr4) =>
        some (s4, Ev.removed a.id :: Ev.listChanged :: tr3 ++ tr4 ++ [Ev.freed a.id])
  else
    some ({ s with anim_ll := updRec (handlerRestartRec a) s.anim_ll }, [])

/-- One iteration body of the `anim_timer` while-loop, for the record the
cursor points at: refresh `last_timer_run`, clear the structural-change
flag, and — when the record has not yet run this round — stamp the parity,
fire the one-shot start logic, advance `act_time`, apply the path value,
and hand a finished record to `anim_ready_handler`. -/
def anim_timer_step (env : Env) (fuel : Nat) (now : Nat) (a0 : AnimRec)
    (s0 : AnimState) : Option (AnimState × List Ev) :=
  let elaps : Int := ((now - a0.last_timer_run : Nat) : Int)
  let a1 := { a0 with last_timer_run := now }
  let s1 : AnimState :=
    { s0 with anim_ll := updRec a1 s0.anim_ll, anim_list_changed := false }
  if a1.run_round ≠ s1.anim_run_round then
    let a2 := { a1 with run_round := s1.anim_run_round }
    let s2 : AnimState := { s1 with anim_ll := updRec a2 s1.anim_ll }
    let new_act_time := a2.act_time + elaps
    let startRes : Option (AnimRec × AnimState × List Ev) :=
      if a2.start_cb_called = false ∧ a2.act_time ≤ 0 ∧ 0 ≤ new_act_time then
        let ofs : AnimRec × AnimState × List Ev :=
          if a2.early_apply = false ∧ a2.get_value_cb.isSome then
            match a2.get_value_cb with
            | some c =>
              let v := env.getValue c
              let a' := { a2 with start_value := a2.start_value + v,
                                  end_value := a2.end_value + v }
              (a', { s2 with anim_ll := updRec a' s2.anim_ll },
               [Ev.getValueCb a2.id])
            | none => (a2, s2, [])
          else (a2, s2, [])
        match runCb env fuel ofs.1.start_cb (Ev.startCb ofs.1.id) ofs.2.1 with
        | none => none
        | some (s3, trS) =>
          let a3 := { ofs.1 with start_cb_called := true }
          some (a3, { s3 with anim_ll := updRec a3 s3.anim_ll },
                ofs.2.2 ++ trS)
      else some (a2, s2, [])
    match startRes with
    | none => none
    | some (a4, s4, trStart) =>
      let a5 := { a4 with act_time := a4.act_time + elaps }
      let s5 : AnimState := { s4 with anim_ll := updRec a5 s4.anim_ll }
      if 0 ≤ a5.act_time then
        let a6 := if a5.time < a5.act_time then { a5 with act_time := a5.time }
                  else a5
        let s6 : AnimState := { s5 with anim_ll := updRec a6 s5.anim_ll }
        let new_value := evalPath a6.path_cb a6
        let execRes : Option (AnimRec × AnimState × List Ev) :=
          if new_value ≠ a6.current_value then
            let a7 := { a6 with current_value := new_value }
            let s7 : AnimState := { s6 with anim_ll := updRec a7 s6.anim_ll }
            match a7.exec_cb with
            | some c =>
              match runDelOps env fuel (env.cbOps c) s7 with
              | none => none
              | some (s8, trc) =>
                some (a7, s8, Ev.execCb a7.id a7.var new_value :: trc)
            | none => some (a7, s7, [])
          else some (a6, s6, [])
        match execRes with
        | none => none
        | some (a8, s8, trExec) =>
          if a8.time ≤ a8.act_time then
            match anim_ready_handler env fuel a8 s8 with
            | none => none
            | some (s9, trH) =>
              some (s9, Ev.advanced a0.id :: (trStart ++ trExec ++ trH))
          else some (s8, Ev.advanced a0.id :: (trStart ++ trExec))
      else some (s5, Ev.advanced a0.id :: trStart)
  else some (s1, [])

/-- The `anim_timer` while-loop, the cursor given as the identities still
to visit; after each record, restart from the head if the structural-change
flag was raised, otherwise move to the next node. -/
def anim_timer_loop (env : Env) : Nat → Nat → List Nat → AnimState →
    Option (AnimState × List Ev)
  | 0, _, _, _ => none
  | _ + 1, _, [], s => some (s, [])
  | fuel + 1, now, id :: rest, s =>
    match s.anim_ll.find? (fun r => r.id == id) with
    | none => anim_timer_loop env fuel now rest s
    | some r =>
      match anim_timer_step env fuel now r s with
      | none => none
      | some (s1, tr1) =>
        let cur := if s1.anim_list_changed then idsOf s1.anim_ll else rest
        match anim_timer_loop env fuel now cur s1 with
        | none => none
        | some (s2, tr2) => some (s2, tr1 ++ tr2)

/-- `anim_timer`: flip the run parity and iterate from the head. -/
def anim_timer (env : Env) (fuel : Nat) (now : Nat) (s : AnimState) :
    Option (AnimState × List Ev) :=
  let s : AnimState := { s with anim_run_round := !s.anim_run_round }
  anim_timer_loop env fuel now (idsOf s.anim_ll) s

/-- `lv_anim_start`: remove any duplicate `(var, exec_cb)` record, allocate
(abstracted by `allocOk`; `newId` is the fresh node's address), copy the
template, rebind a self-referential `var`, stamp the parity and
`last_timer_run := lv_tick_get() = aNow`, apply the early-apply offset and
initial setter call, and mark the list changed.  Returns the new handle,
`none` on allocation failure. -/
def lv_anim_start (env : Env) (fuel : Nat) (aAddr : Nat) (a : AnimRec)
    (newId : Nat) (allocOk : Bool) (aNow : Nat) (s : AnimState) :
    Option (AnimState × List Ev × Option Nat) :=
  let del0 : Option (AnimState × List Ev) :=
    match a.exec_cb with
    | some _ =>
      match lv_anim_del env fuel a.var a.exec_cb s with
      | none => none
      | some (s1, tr1, _) => some (s1, tr1)
    | none => some (s, [])
  match del0 with
  | none => none
  | some (sD, trDel) =>
    if allocOk = false then some (sD, trDel, none)
    else
      let na := { a with id := newId,
                         var := if a.var = some aAddr then some newId else a.var,
                         run_round := sD.anim_run_round,
                         last_timer_run := aNow }
      let sI : AnimState := { sD with anim_ll := na :: sD.anim_ll }
      let applyRes : Option (AnimState × List Ev) :=
        if na.early_apply = true then
          match na.get_value_cb with
          | some c =>
            let v := env.getValue c
            let na' := { na with start_value := na.start_value + v,
                                 end_value := na.end_value + v }
            let sV : AnimState := { sI with anim_ll := updRec na' sI.anim_ll }
            match na'.exec_cb, na'.var with
            | some c2, some _ =>
              match runDelOps env fuel (env.cbOps c2) sV with
              | none => none
              | some (s2, trc) =>
                some (s2, Ev.getValueCb newId ::
                  Ev.execCb newId na'.var na'.start_value :: trc)
            | _, _ => some (sV, [Ev.getValueCb newId])
          | none =>
            match na.exec_cb, na.var with
            | some c2, some _ =>
              match runDelOps env fuel (env.cbOps c2) sI with
              | none => none
              | some (s2, trc) =>
                some (s2, Ev.execCb newId na.var na.start_value :: trc)
            | _, _ => some (sI, [])
        else some (sI, [])
      match applyRes with
      | none => none
      | some (sA, trA) =>
        some (markChange sA,
          trDel ++ Ev.inserted newId :: trA ++ [Ev.listChanged], some newId)

/-! ### Basic list lemmas about the registry helpers -/

theorem removeId_sublist (id : Nat) (l : List AnimRec) :
    (removeId id l).Sublist l := List.filter_sublist l

theorem mem_removeId {id : Nat} {l : List AnimRec} {r : AnimRec} :
    r ∈ removeId id l ↔ r ∈ l ∧ r.id ≠ id := by
  unfold removeId
  simp [List.mem_filter]

theorem idsOf_updRec (a : AnimRec) (l : List AnimRec) :
    idsOf (updRec a l) = idsOf l := by
  unfold idsOf updRec
  rw [List.map_map]
  apply List.map_congr_left
  intro r _
  by_cases h : r.id = a.id <;> simp [h]

theorem markChange_anim_ll (s : AnimState) :
    (markChange s).anim_ll = s.anim_ll := by
  by_cases h : s.anim_ll.isEmpty <;> simp [markChange, h]

theorem markChange_flag (s : AnimState) :
    (markChange s).anim_list_changed = true := by
  by_cases h : s.anim_ll.isEmpty <;> simp [markChange, h]

theorem markChange_parity (s : AnimState) :
    (markChange s).anim_run_round = s.anim_run_round := by
  by_cases h : s.anim_ll.isEmpty <;> simp [markChange, h]

theorem idsOf_sublist {l l' : List AnimRec} (h : l'.Sublist l) :
    (idsOf l').Sublist (idsOf l) := h.map _

theorem idsOf_nodup_sublist {l l' : List AnimRec} (h : l'.Sublist l)
    (hn : (idsOf l).Nodup) : (idsOf l').Nodup :=
  (idsOf_sublist h).nodup hn

theorem mem_idsOf {l : List AnimRec} {r : AnimRec} (h : r ∈ l) :
    r.id ∈ idsOf l := List.mem_map_of_mem _ h

theorem eq_of_mem_of_nodup_ids {l : List AnimRec} {a b : AnimRec}
    (hn : (idsOf l).Nodup) (ha : a ∈ l) (hb : b ∈ l) (hid : a.id = b.id) :
    a = b :=
  List.inj_on_of_nodup_map hn ha hb hid

theorem find?_id_eq {l : List AnimRec} {id : Nat} {r : AnimRec}
    (h : l.find? (fun r => r.id == id) = some r) : r ∈ l ∧ r.id = id := by
  refine ⟨List.mem_of_find?_eq_some h, ?_⟩
  have := List.find?_some h
  simpa using this

theorem find?_id_eq_none {l : List AnimRec} {id : Nat}
    (h : l.find? (fun r => r.id == id) = none) : ∀ r ∈ l, r.id ≠ id := by
  intro r hr
  have := List.find?_eq_none.mp h r hr
  simpa using this

theorem find?_id_isSome {l : List AnimRec} {id : Nat} (h : id ∈ idsOf l) :
    ∃ r, l.find? (fun r => r.id == id) = some r := by
  rcases List.mem_map.mp h with ⟨r, hr, hid⟩
  cases hfind : l.find? (fun r => r.id == id) with
  | some r' => exact ⟨r', rfl⟩
  | none => exact absurd hid (find?_id_eq_none hfind r hr)

/-! ### The delete-operation guarantee bundle -/

/-- The record identity an event is about (`none` for `listChanged`). -/
def evSubject : Ev → Option Nat
  | .listChanged => none
  | .removed i => some i
  | .readyCb i => some i
  | .deletedCb i => some i
  | .freed i => some i
  | .startCb i => some i
  | .getValueCb i => some i
  | .execCb i _ _ => some i
  | .inserted i => some i
  | .advanced i => some i

/-- Events a (possibly reentrant) `lv_anim_del` can emit. -/
def isDelEv : Ev → Bool
  | .removed _ => true
  | .listChanged => true
  | .deletedCb _ => true
  | .freed _ => true
  | _ => false

/-- What any (possibly reentrant) delete executed inside a registry
operation guarantees about a state transition `s → s'` with trace `tr`:
survivors are a sublist of the original records (same records, same
order), the run parity is untouched, the structural-change flag is raised
whenever something was removed and never cleared, the trace holds only
deletion events and only about records that were present, and every
removed record got its `removed` (and, when bound, `deletedCb`) event. -/
structure DelPost (s s' : AnimState) (tr : List Ev) : Prop where
  sub : s'.anim_ll.Sublist s.anim_ll
  parity : s'.anim_run_round = s.anim_run_round
  flagMono : s.anim_list_changed = true → s'.anim_list_changed = true
  stEq : s' = s ∨ (s'.anim_ll.length < s.anim_ll.length ∧
      s'.anim_list_changed = true)
  evKinds : ∀ e ∈ tr, isDelEv e = true
  evMem : ∀ e ∈ tr, ∀ i, evSubject e = some i → i ∈ idsOf s.anim_ll
  remEv : (idsOf s.anim_ll).Nodup → ∀ r ∈ s.anim_ll, r ∉ s'.anim_ll →
      Ev.removed r.id ∈ tr ∧ ∀ c, r.deleted_cb = some c →
        Ev.deletedCb r.id ∈ tr

/-- The guarantees specific to the `delAux` cursor loop. -/
def DelAuxPost (var cb : Option Nat) (cur : List Nat) (s : AnimState)
    (delAny : Bool) (out : AnimState × List Ev × Bool) : Prop :=
  DelPost s out.1 out.2.1 ∧
  (out.2.2 = true ↔ (delAny = true ∨
      out.1.anim_ll.length < s.anim_ll.length)) ∧
  ((idsOf s.anim_ll).Nodup →
    (∀ r ∈ s.anim_ll, r.id ∉ cur → matchesDel var cb r = false) →
    ∀ r ∈ out.1.anim_ll, matchesDel var cb r = false) ∧
  ((∀ r ∈ s.anim_ll, matchesDel var cb r = false) →
    out.1 = s ∧ out.2.1 = [] ∧ out.2.2 = delAny)

theorem DelPost.rfl (s : AnimState) : DelPost s s [] where
  sub := List.Sublist.refl _
  parity := Eq.refl _
  flagMono := fun h => h
  stEq := Or.inl (Eq.refl _)
  evKinds := by intro e he; cases he
  evMem := by intro e he; cases he
  remEv := by intro _ r hr hnr; exact absurd hr hnr

theorem DelPost.comp {s1 s2 s3 : AnimState} {tr1 tr2 : List Ev}
    (h1 : DelPost s1 s2 tr1) (h2 : DelPost s2 s3 tr2) :
    DelPost s1 s3 (tr1 ++ tr2) where
  sub := h2.sub.trans h1.sub
  parity := h2.parity.trans h1.parity
  flagMono := fun h => h2.flagMono (h1.flagMono h)
  stEq := by
    rcases h1.stEq with h | ⟨hl1, hf1⟩
    · rw [h] at h2
      exact h2.stEq
    · rcases h2.stEq with h | ⟨hl2, hf2⟩
      · rw [h]
        exact Or.inr ⟨hl1, hf1⟩
      · exact Or.inr ⟨lt_trans hl2 hl1, hf2⟩
  evKinds := by
    intro e he
    rcases List.mem_append.mp he with he | he
    · exact h1.evKinds e he
    · exact h2.evKinds e he
  evMem := by
    intro e he i hei
    rcases List.mem_append.mp he with he | he
    · exact h1.evMem e he i hei
    · exact (idsOf_sublist h1.sub).subset (h2.evMem e he i hei)
  remEv := by
    intro hn r hr hnr
    by_cases h12 : r ∈ s2.anim_ll
    · have h := h2.remEv (idsOf_nodup_sublist h1.sub hn) r h12 hnr
      exact ⟨List.mem_append.mpr (Or.inr h.1),
        fun c hc => List.mem_append.mpr (Or.inr (h.2 c hc))⟩
    · have h := h1.remEv hn r hr h12
      exact ⟨List.mem_append.mpr (Or.inl h.1),
        fun c hc => List.mem_append.mpr (Or.inl (h.2 c hc))⟩

theorem removeId_length_lt {l : List AnimRec} {r : AnimRec} {id : Nat}
    (hr : r ∈ l) (hid : r.id = id) :
    (removeId id l).length < l.length := by
  unfold removeId
  rw [List.length_filter_lt_length_iff_exists]
  exact ⟨r, hr, by simp [hid]⟩

/-- The delete guarantees, proved for `delAux` and `runDelOps` together by
induction on the fuel. -/
theorem del_mutual (n : Nat) :
    (∀ (env : Env) (var cb : Option Nat) (cur : List Nat) (s : AnimState)
       (delAny : Bool) (out : AnimState × List Ev × Bool),
        delAux env n var cb cur s delAny = some out →
        DelAuxPost var cb cur s delAny out) ∧
    (∀ (env : Env) (ops : List DelOp) (s : AnimState)
       (out : AnimState × List Ev),
        runDelOps env n ops s = some out → DelPost s out.1 out.2) := by
  induction n with
  | zero =>
    constructor
    · intro env var cb cur s delAny out h
      simp [delAux] at h
    · intro env ops s out h
      simp [runDelOps] at h
  | succ n ih =>
    obtain ⟨ihA, ihO⟩ := ih
    constructor
    · intro env var cb cur s delAny out h
      match cur with
      | [] =>
        simp only [delAux, Option.some.injEq] at h
        subst h
        refine ⟨DelPost.rfl s, by simp, ?_, fun _ => ⟨Eq.refl _, Eq.refl _, Eq.refl _⟩⟩
        intro _ hcur r hr
        exact hcur r hr (by simp)
      | id :: rest =>
        simp only [delAux] at h
        split at h
        next hfind =>
          obtain ⟨hP, hb, hnm, hnop⟩ := ihA env var cb rest s delAny out h
          refine ⟨hP, hb, ?_, hnop⟩
          intro hn hcur
          apply hnm hn
          intro r hr hrrest
          by_cases hid : r.id = id
          · exact absurd hid (find?_id_eq_none hfind r hr)
          · exact hcur r hr
              (by simp only [List.mem_cons, not_or]; exact ⟨hid, hrrest⟩)
        next r hfind =>
          obtain ⟨hrmem, hrid⟩ := find?_id_eq hfind
          have hs1sub : (removeId id s.anim_ll).Sublist s.anim_ll :=
            removeId_sublist id s.anim_ll
          have hs1len : (removeId id s.anim_ll).length < s.anim_ll.length :=
            removeId_length_lt hrmem hrid
          have hids1 : idsOf (removeId id s.anim_ll) ⊆ idsOf s.anim_ll :=
            (idsOf_sublist hs1sub).subset
          have hidmem : id ∈ idsOf s.anim_ll := hrid ▸ mem_idsOf hrmem
          split at h
          next hm =>
            split at h
            next c hdc =>
              split at h
              next hops => exact Option.noConfusion h
              next s2 tr2 hops =>
                split at h
                next hrec => exact Option.noConfusion h
                next s4 tr4 b hrec =>
                  injection h with h
                  subst h
                  have O2 : DelPost { s with anim_ll := removeId id s.anim_ll }
                      s2 tr2 := ihO env (env.cbOps c) _ (s2, tr2) hops
                  obtain ⟨A4P, A4b, A4nm, _⟩ :=
                    ihA env var cb _ (markChange s2) true (s4, tr4, b) hrec
                  have O2sub : s2.anim_ll.Sublist (removeId id s.anim_ll) := O2.sub
                  have O2par : s2.anim_run_round = s.anim_run_round := O2.parity
                  have A4sub : s4.anim_ll.Sublist s2.anim_ll := by
                    have h1 := A4P.sub
                    rwa [markChange_anim_ll] at h1
                  have A4par : s4.anim_run_round = s2.anim_run_round := by
                    have h1 := A4P.parity
                    rwa [markChange_parity] at h1
                  have A4flag : s4.anim_list_changed = true :=
                    A4P.flagMono (markChange_flag s2)
                  have hsub4 : s4.anim_ll.Sublist s.anim_ll :=
                    (A4sub.trans O2sub).trans hs1sub
                  have hlen4 : s4.anim_ll.length < s.anim_ll.length := by
                    have g1 := A4sub.length_le
                    have g2 : s2.anim_ll.length ≤
                        (removeId id s.anim_ll).length := O2sub.length_le
                    omega
                  have hids2 : idsOf s2.anim_ll ⊆ idsOf s.anim_ll :=
                    fun i hi => hids1 ((idsOf_sublist O2sub).subset hi)
                  have intoTr2 : ∀ {e : Ev}, e ∈ tr2 →
                      e ∈ (Ev.removed id :: Ev.deletedCb id :: tr2 ++
                        Ev.freed id :: Ev.listChanged :: tr4) := fun he =>
                    List.mem_append_left _ (List.mem_cons_of_mem _
                      (List.mem_cons_of_mem _ he))
                  have intoTr4 : ∀ {e : Ev}, e ∈ tr4 →
                      e ∈ (Ev.removed id :: Ev.deletedCb id :: tr2 ++
                        Ev.freed id :: Ev.listChanged :: tr4) := fun he =>
                    List.mem_append_right _ (List.mem_cons_of_mem _
                      (List.mem_cons_of_mem _ he))
                  refine ⟨⟨hsub4, A4par.trans O2par, fun _ => A4flag,
                    Or.inr ⟨hlen4, A4flag⟩, ?_, ?_, ?_⟩, ?_, ?_, ?_⟩
                  · intro e he
                    simp only [List.mem_cons, List.mem_append] at he
                    rcases he with (rfl | rfl | he) | (rfl | rfl | he)
                    · rfl
                    · rfl
                    · exact O2.evKinds e he
                    · rfl
                    · rfl
                    · exact A4P.evKinds e he
                  · intro e he i hei
                    simp only [List.mem_cons, List.mem_append] at he
                    rcases he with (rfl | rfl | he) | (rfl | rfl | he)
                    · simp only [evSubject, Option.some.injEq] at hei
                      exact hei ▸ hidmem
                    · simp only [evSubject, Option.some.injEq] at hei
                      exact hei ▸ hidmem
                    · exact hids1 (O2.evMem e he i hei)
                    · simp only [evSubject, Option.some.injEq] at hei
                      exact hei ▸ hidmem
                    · simp [evSubject] at hei
                    · refine hids2 ?_
                      have h1 := A4P.evMem e he i hei
                      rwa [markChange_anim_ll] at h1
                  · intro hn rr hrr hnrr
                    by_cases hrrid : rr.id = id
                    · have hrreq : rr = r :=
                        eq_of_mem_of_nodup_ids hn hrr hrmem (by rw [hrrid, hrid])
                      constructor
                      · rw [hrrid]
                        exact List.mem_append_left _ (List.mem_cons_self _ _)
                      · intro c' _
                        rw [hrrid]
                        exact List.mem_append_left _
                          (List.mem_cons_of_mem _ (List.mem_cons_self _ _))
                    · have hrr1 : rr ∈ removeId id s.anim_ll :=
                        mem_removeId.mpr ⟨hrr, hrrid⟩
                      have hn1 : (idsOf (removeId id s.anim_ll)).Nodup :=
                        idsOf_nodup_sublist hs1sub hn
                      by_cases hrr2 : rr ∈ s2.anim_ll
                      · have hrr3 : rr ∈ (markChange s2).anim_ll := by
                          rwa [markChange_anim_ll]
                        have hres := A4P.remEv
                          (by rw [markChange_anim_ll]
                              exact idsOf_nodup_sublist O2sub hn1) rr hrr3 hnrr
                        exact ⟨intoTr4 hres.1,
                          fun c' hc' => intoTr4 (hres.2 c' hc')⟩
                      · have hres := O2.remEv hn1 rr hrr1 hrr2
                        exact ⟨intoTr2 hres.1,
                          fun c' hc' => intoTr2 (hres.2 c' hc')⟩
                  · constructor
                    · intro _
                      exact Or.inr hlen4
                    · intro _
                      exact A4b.mpr (Or.inl (Eq.refl _))
                  · intro hn _ rr hrr
                    refine A4nm ?_ ?_ rr hrr
                    · rw [markChange_anim_ll]
                      exact idsOf_nodup_sublist (O2sub.trans hs1sub) hn
                    · intro r' hr' habs
                      exact absurd (mem_idsOf hr') habs
                  · intro hall
                    rw [hall r hrmem] at hm
                    exact Bool.noConfusion hm
            next hdc =>
              split at h
              next hrec => exact Option.noConfusion h
              next s4 tr4 b hrec =>
                injection h with h
                subst h
                obtain ⟨A4P, A4b, A4nm, _⟩ := ihA env var cb _
                  (markChange { s with anim_ll := removeId id s.anim_ll })
                  true (s4, tr4, b) hrec
                have A4sub : s4.anim_ll.Sublist (removeId id s.anim_ll) := by
                  have h1 := A4P.sub
                  rwa [markChange_anim_ll] at h1
                have A4par : s4.anim_run_round = s.anim_run_round := by
                  have h1 := A4P.parity
                  rwa [markChange_parity] at h1
                have A4flag : s4.anim_list_changed = true :=
                  A4P.flagMono (markChange_flag _)
                have hsub4 : s4.anim_ll.Sublist s.anim_ll := A4sub.trans hs1sub
                have hlen4 : s4.anim_ll.length < s.anim_ll.length := by
                  have g1 := A4sub.length_le
                  omega
                have intoTr4 : ∀ {e : Ev}, e ∈ tr4 →
                    e ∈ (Ev.removed id :: Ev.freed id ::
                      Ev.listChanged :: tr4) := fun he =>
                  List.mem_cons_of_mem _ (List.mem_cons_of_mem _
                    (List.mem_cons_of_mem _ he))
                refine ⟨⟨hsub4, A4par, fun _ => A4flag,
                  Or.inr ⟨hlen4, A4flag⟩, ?_, ?_, ?_⟩, ?_, ?_, ?_⟩
                · intro e he
                  simp only [List.mem_cons] at he
                  rcases he with rfl | rfl | rfl | he
                  · rfl
                  · rfl
                  · rfl
                  · exact A4P.evKinds e he
                · intro e he i hei
                  simp only [List.mem_cons] at he
                  rcases he with rfl | rfl | rfl | he
                  · simp only [evSubject, Option.some.injEq] at hei
                    exact hei ▸ hidmem
                  · simp only [evSubject, Option.some.injEq] at hei
                    exact hei ▸ hidmem
                  · simp [evSubject] at hei
                  · refine hids1 ?_
                    have h1 := A4P.evMem e he i hei
                    rwa [markChange_anim_ll] at h1
                · intro hn rr hrr hnrr
                  by_cases hrrid : rr.id = id
                  · have hrreq : rr = r :=
                      eq_of_mem_of_nodup_ids hn hrr hrmem (by rw [hrrid, hrid])
                    constructor
                    · rw [hrrid]
                      exact List.mem_cons_self _ _
                    · intro c' hc'
                      rw [hrreq, hdc] at hc'
                      exact Option.noConfusion hc'
                  · have hrr1 : rr ∈ removeId id s.anim_ll :=
                      mem_removeId.mpr ⟨hrr, hrrid⟩
                    have hn1 : (idsOf (removeId id s.anim_ll)).Nodup :=
                      idsOf_nodup_sublist hs1sub hn
                    have hrr3 : rr ∈ (markChange
                        { s with anim_ll := removeId id s.anim_ll }).anim_ll := by
                      rwa [markChange_anim_ll]
                    have hres := A4P.remEv
                      (by rw [markChange_anim_ll]; exact hn1) rr hrr3 hnrr
                    exact ⟨intoTr4 hres.1,
                      fun c' hc' => intoTr4 (hres.2 c' hc')⟩
                · constructor
                  · intro _
                    exact Or.inr hlen4
                  · intro _
                    exact A4b.mpr (Or.inl (Eq.refl _))
                · intro hn _ rr hrr
                  refine A4nm ?_ ?_ rr hrr
                  · rw [markChange_anim_ll]
                    exact idsOf_nodup_sublist hs1sub hn
                  · intro r' hr' habs
                    exact absurd (mem_idsOf hr') habs
                · intro hall
                  rw [hall r hrmem] at hm
                  exact Bool.noConfusion hm
          next hm =>
            obtain ⟨hP, hb, hnm, hnop⟩ := ihA env var cb rest s delAny out h
            have hm' : matchesDel var cb r = false := by
              revert hm
              cases matchesDel var cb r <;> simp
            refine ⟨hP, hb, ?_, hnop⟩
            intro hn hcur
            apply hnm hn
            intro rr hrr hrrest
            by_cases hid : rr.id = id
            · have hrreq : rr = r :=
                eq_of_mem_of_nodup_ids hn hrr hrmem (by rw [hid, hrid])
              rw [hrreq]
              exact hm'
            · exact hcur rr hrr
                (by simp only [List.mem_cons, not_or]; exact ⟨hid, hrrest⟩)
    · intro env ops s out h
      match ops with
      | [] =>
        simp only [runDelOps, Option.some.injEq] at h
        subst h
        exact DelPost.rfl s
      | op :: ops =>
        simp only [runDelOps] at h
        split at h
        next hdel => exact Option.noConfusion h
        next s1 tr1 b1 hdel =>
          split at h
          next hrest => exact Option.noConfusion h
          next s2 tr2 hrest =>
            injection h with h
            subst h
            have A1 := (ihA env op.1 op.2 (idsOf s.anim_ll) s false
              (s1, tr1, b1) hdel).1
            have O2 := ihO env ops s1 (s2, tr2) hrest
            exact DelPost.comp A1 O2

theorem lv_anim_del_post {env : Env} {fuel : Nat} {var cb : Option Nat}
    {s : AnimState} {out : AnimState × List Ev × Bool}
    (h : lv_anim_del env fuel var cb s = some out) :
    DelAuxPost var cb (idsOf s.anim_ll) s false out :=
  (del_mutual fuel).1 env var cb _ s false out h

theorem runDelOps_post {env : Env} {fuel : Nat} {ops : List DelOp}
    {s : AnimState} {out : AnimState × List Ev}
    (h : runDelOps env fuel ops s = some out) : DelPost s out.1 out.2 :=
  (del_mutual fuel).2 env ops s out h

theorem sublist_lt_iff_missing {l' l : List AnimRec} (hsub : l'.Sublist l)
    (hn : l.Nodup) : l'.length < l.length ↔ ∃ r ∈ l, r ∉ l' := by
  constructor
  · intro hlt
    by_contra hno
    push_neg at hno
    have hsubp : List.Subperm l l' := hn.subperm hno
    have := hsubp.length_le
    omega
  · rintro ⟨r, hr, hnr⟩
    have hle := hsub.length_le
    rcases lt_or_eq_of_le hle with h | h
    · exact h
    · have e := hsub.eq_of_length h
      rw [e] at hnr
      exact absurd hr hnr

/-! ### C6 — the delete operation -/

/-- C6: `lv_anim_del` removes every record matching `(var, cb)` under the
null-wildcard rules (encoded by `matchesDel`), leaves no matching record
behind, emits `removed` and — when bound — `deletedCb` for every record it
removed, returns `true` iff at least one record was removed, and is a
silent no-op returning `false` when nothing matches. -/
theorem C6_del (env : Env) (fuel : Nat) (var cb : Option Nat)
    (s s' : AnimState) (tr : List Ev) (b : Bool)
    (hn : (idsOf s.anim_ll).Nodup)
    (h : lv_anim_del env fuel var cb s = some (s', tr, b)) :
    (∀ r ∈ s.anim_ll, matchesDel var cb r = true → r ∉ s'.anim_ll) ∧
    (∀ r ∈ s'.anim_ll, matchesDel var cb r = false) ∧
    (∀ r ∈ s.anim_ll, r ∉ s'.anim_ll →
      Ev.removed r.id ∈ tr ∧
      ∀ c, r.deleted_cb = some c → Ev.deletedCb r.id ∈ tr) ∧
    (b = true ↔ ∃ r ∈ s.anim_ll, r ∉ s'.anim_ll) ∧
    ((∀ r ∈ s.anim_ll, matchesDel var cb r = false) →
      s' = s ∧ tr = [] ∧ b = false) := by
  obtain ⟨hP, hb, hnm, hnop⟩ := lv_anim_del_post h
  have hfinal : ∀ r ∈ s'.anim_ll, matchesDel var cb r = false := by
    apply hnm hn
    intro r hr habs
    exact absurd (mem_idsOf hr) habs
  refine ⟨?_, hfinal, hP.remEv hn, ?_, ?_⟩
  · intro r hr hmatch hr'
    rw [hfinal r hr'] at hmatch
    exact Bool.noConfusion hmatch
  · rw [hb, sublist_lt_iff_missing hP.sub (hn.of_map _)]
    simp
  · intro hall
    exact hnop hall

/-- Concrete registry used for C6's witness. -/
def envC6 : Env := ⟨fun _ => [], fun _ => 0⟩

def rw1C6 : AnimRec := { lv_anim_init with id := 1, var := some 5, deleted_cb := some 9 }

def rw2C6 : AnimRec := { lv_anim_init with id := 2, var := some 6 }

def sC6 : AnimState := ⟨[rw1C6, rw2C6], false, false, false⟩

def sC6' : AnimState := ⟨[rw2C6], true, false, false⟩

def trC6 : List Ev := [Ev.removed 1, Ev.deletedCb 1, Ev.freed 1, Ev.listChanged]

/-- Witness for C6 at a concrete state: the matching record is removed and
its `deleted_cb` was invoked. -/
theorem C6_del_witness : rw1C6 ∉ sC6'.anim_ll ∧ Ev.deletedCb 1 ∈ trC6 := by
  have h := C6_del envC6 10 (some 5) none sC6 sC6' trC6 true (by decide) (by decide)
  exact ⟨h.1 rw1C6 (by decide) (by decide),
    (h.2.2.1 rw1C6 (by decide) (h.1 rw1C6 (by decide) (by decide))).2 9 (by decide)⟩


/-! ### Record-update and callback lemmas -/

theorem mem_updRec {b : AnimRec} {l : List AnimRec} {r' : AnimRec}
    (h : r' ∈ updRec b l) : r' = b ∨ (r' ∈ l ∧ r'.id ≠ b.id) := by
  unfold updRec at h
  rcases List.mem_map.mp h with ⟨r, hr, hf⟩
  by_cases hid : r.id = b.id
  · rw [if_pos hid] at hf
    exact Or.inl hf.symm
  · rw [if_neg hid] at hf
    exact Or.inr ⟨hf ▸ hr, hf ▸ hid⟩

theorem mem_updRec_self {b : AnimRec} {l : List AnimRec} {a : AnimRec}
    (ha : a ∈ l) (hid : a.id = b.id) : b ∈ updRec b l := by
  unfold updRec
  exact List.mem_map.mpr ⟨a, ha, by rw [if_pos hid]⟩

theorem mem_updRec_ne {b : AnimRec} {l : List AnimRec} {a : AnimRec}
    (ha : a ∈ l) (hid : a.id ≠ b.id) : a ∈ updRec b l := by
  unfold updRec
  exact List.mem_map.mpr ⟨a, ha, by rw [if_neg hid]⟩

@[simp] theorem decRepeat_id (a : AnimRec) : (decRepeat a).id = a.id := by
  unfold decRepeat; split <;> rfl

@[simp] theorem decRepeat_ready_cb (a : AnimRec) :
    (decRepeat a).ready_cb = a.ready_cb := by
  unfold decRepeat; split <;> rfl

@[simp] theorem decRepeat_deleted_cb (a : AnimRec) :
    (decRepeat a).deleted_cb = a.deleted_cb := by
  unfold decRepeat; split <;> rfl

@[simp] theorem decRepeat_playback_time (a : AnimRec) :
    (decRepeat a).playback_time = a.playback_time := by
  unfold decRepeat; split <;> rfl

@[simp] theorem decRepeat_playback_now (a : AnimRec) :
    (decRepeat a).playback_now = a.playback_now := by
  unfold decRepeat; split <;> rfl

@[simp] theorem decRepeat_playback_delay (a : AnimRec) :
    (decRepeat a).playback_delay = a.playback_delay := by
  unfold decRepeat; split <;> rfl

@[simp] theorem decRepeat_repeat_delay (a : AnimRec) :
    (decRepeat a).repeat_delay = a.repeat_delay := by
  unfold decRepeat; split <;> rfl

@[simp] theorem decRepeat_start_value (a : AnimRec) :
    (decRepeat a).start_value = a.start_value := by
  unfold decRepeat; split <;> rfl

@[simp] theorem decRepeat_end_value (a : AnimRec) :
    (decRepeat a).end_value = a.end_value := by
  unfold decRepeat; split <;> rfl

@[simp] theorem decRepeat_time (a : AnimRec) :
    (decRepeat a).time = a.time := by
  unfold decRepeat; split <;> rfl

@[simp] theorem decRepeat_run_round (a : AnimRec) :
    (decRepeat a).run_round = a.run_round := by
  unfold decRepeat; split <;> rfl

/-- The run/playback decision of `anim_ready_handler`, as the source tests
it after the conditional `repeat_cnt` decrement: the record is terminal
exactly when no repeats are left and there is no playback leg still owed. -/
def terminalCond (a : AnimRec) : Prop :=
  (decRepeat a).repeat_cnt = 0 ∧
  ((decRepeat a).playback_time = 0 ∨ (decRepeat a).playback_now = true)

instance (a : AnimRec) : Decidable (terminalCond a) := by
  unfold terminalCond; infer_instance

theorem runCb_post {env : Env} {fuel : Nat} {cb : Option Nat} {ev : Ev}
    {s : AnimState} {out : AnimState × List Ev}
    (h : runCb env fuel cb ev s = some out) :
    ∃ trc, DelPost s out.1 trc ∧
      ((cb = none ∧ out.2 = [] ∧ out.1 = s) ∨
       (∃ c, cb = some c ∧ out.2 = ev :: trc)) := by
  cases cb with
  | none =>
    simp only [runCb, Option.some.injEq] at h
    subst h
    exact ⟨[], DelPost.rfl s, Or.inl ⟨rfl, rfl, rfl⟩⟩
  | some c =>
    simp only [runCb] at h
    split at h
    next hops => exact Option.noConfusion h
    next s1 tr1 hops =>
      injection h with h
      subst h
      exact ⟨tr1, runDelOps_post hops, Or.inr ⟨c, rfl, rfl⟩⟩


theorem not_mem_idsOf_removeId (id : Nat) (l : List AnimRec) :
    id ∉ idsOf (removeId id l) := by
  intro h
  rcases List.mem_map.mp h with ⟨r, hr, hid⟩
  rcases List.mem_filter.mp hr with ⟨_, hpr⟩
  simp [hid] at hpr

/-- Dissection of `anim_ready_handler` in the terminal case: the record is
unlinked from the registry before any callback runs, the structural change
is marked, `ready_cb` is invoked before `deleted_cb` (each exactly when
present), and the record is released last. -/
theorem handler_terminal_shape {env : Env} {fuel : Nat} {a : AnimRec}
    {s s' : AnimState} {tr : List Ev}
    (hterm : terminalCond a)
    (h : anim_ready_handler env fuel a s = some (s', tr)) :
    (∀ r ∈ s'.anim_ll, r.id ≠ a.id) ∧
    (∃ trR trD,
      tr = Ev.removed a.id :: Ev.listChanged :: trR ++ trD ++ [Ev.freed a.id] ∧
      (a.ready_cb = none → trR = []) ∧
      (∀ c, a.ready_cb = some c → ∃ t, trR = Ev.readyCb a.id :: t) ∧
      (a.deleted_cb = none → trD = []) ∧
      (∀ c, a.deleted_cb = some c → ∃ t, trD = Ev.deletedCb a.id :: t)) ∧
    (Ev.readyCb a.id ∈ tr ↔ a.ready_cb.isSome = true) ∧
    (Ev.deletedCb a.id ∈ tr ↔ a.deleted_cb.isSome = true) ∧
    s'.anim_run_round = s.anim_run_round ∧
    s'.anim_list_changed = true ∧
    s'.anim_ll.Sublist (removeId a.id s.anim_ll) ∧
    (∀ e ∈ tr, isDelEv e = true ∨ e = Ev.readyCb a.id) := by
  simp only [anim_ready_handler] at h
  unfold terminalCond at hterm
  rw [if_pos hterm] at h
  split at h
  next hcb1 => exact Option.noConfusion h
  next s3 tr3 hcb1 =>
    split at h
    next hcb2 => exact Option.noConfusion h
    next s4 tr4 hcb2 =>
      injection h with h
      injection h with hs htr
      subst hs
      subst htr
      obtain ⟨trc3, P3, hd3⟩ := runCb_post hcb1
      obtain ⟨trc4, P4, hd4⟩ := runCb_post hcb2
      have hP3 : DelPost (markChange
          { s with anim_ll := removeId (decRepeat a).id s.anim_ll }) s3 trc3 := P3
      have hP4 : DelPost s3 s4 trc4 := P4
      have hida : (decRepeat a).id = a.id := decRepeat_id a
      have hnomem : a.id ∉ idsOf (markChange
          { s with anim_ll := removeId (decRepeat a).id s.anim_ll }).anim_ll := by
        rw [markChange_anim_ll]
        show a.id ∉ idsOf (removeId (decRepeat a).id s.anim_ll)
        rw [hida]
        exact not_mem_idsOf_removeId a.id s.anim_ll
      have hids3 : ∀ i, i ∈ idsOf s3.anim_ll → i ∈ idsOf (markChange
          { s with anim_ll := removeId (decRepeat a).id s.anim_ll }).anim_ll :=
        fun i hi => (idsOf_sublist hP3.sub).subset hi
      have hids4 : ∀ i, i ∈ idsOf s4.anim_ll → i ∈ idsOf (markChange
          { s with anim_ll := removeId (decRepeat a).id s.anim_ll }).anim_ll :=
        fun i hi => hids3 i ((idsOf_sublist hP4.sub).subset hi)
      have hnotr3 : Ev.deletedCb a.id ∉ trc3 := fun hmem =>
        hnomem (hP3.evMem _ hmem a.id rfl)
      have hnotr4 : Ev.deletedCb a.id ∉ trc4 := fun hmem =>
        hnomem (hids3 a.id (hP4.evMem _ hmem a.id rfl))
      have hready3 : Ev.readyCb a.id ∉ trc3 := fun hmem =>
        Bool.noConfusion (hP3.evKinds _ hmem)
      have hready4 : Ev.readyCb a.id ∉ trc4 := fun hmem =>
        Bool.noConfusion (hP4.evKinds _ hmem)
      have htr3 : (decRepeat a).ready_cb = none → tr3 = [] := by
        intro hnone
        rcases hd3 with ⟨_, h2, _⟩ | ⟨c, hc, _⟩
        · exact h2
        · rw [hnone] at hc
          exact Option.noConfusion hc
      have htr3s : ∀ c, (decRepeat a).ready_cb = some c →
          tr3 = Ev.readyCb (decRepeat a).id :: trc3 := by
        intro c hc
        rcases hd3 with ⟨h1, _, _⟩ | ⟨c', _, h2⟩
        · rw [hc] at h1
          exact Option.noConfusion h1
        · exact h2
      have htr4 : (decRepeat a).deleted_cb = none → tr4 = [] := by
        intro hnone
        rcases hd4 with ⟨_, h2, _⟩ | ⟨c, hc, _⟩
        · exact h2
        · rw [hnone] at hc
          exact Option.noConfusion hc
      have htr4s : ∀ c, (decRepeat a).deleted_cb = some c →
          tr4 = Ev.deletedCb (decRepeat a).id :: trc4 := by
        intro c hc
        rcases hd4 with ⟨h1, _, _⟩ | ⟨c', _, h2⟩
        · rw [hc] at h1
          exact Option.noConfusion h1
        · exact h2
      have hr3mem : Ev.readyCb a.id ∈ tr3 ↔ a.ready_cb.isSome = true := by
        cases hrc : a.ready_cb with
        | none =>
          rw [htr3 (by simpa using hrc)]
          simp
        | some c =>
          rw [htr3s c (by simpa using hrc), hida]
          simp
      have hr3del : Ev.deletedCb a.id ∉ tr3 := by
        cases hrc : a.ready_cb with
        | none =>
          rw [htr3 (by simpa using hrc)]
          simp
        | some c =>
          rw [htr3s c (by simpa using hrc)]
          intro hmem
          rcases List.mem_cons.mp hmem with heq | hmem
          · exact Ev.noConfusion heq
          · exact hnotr3 hmem
      have hr4mem : Ev.deletedCb a.id ∈ tr4 ↔ a.deleted_cb.isSome = true := by
        cases hrc : a.deleted_cb with
        | none =>
          rw [htr4 (by simpa using hrc)]
          simp
        | some c =>
          rw [htr4s c (by simpa using hrc), hida]
          simp
      have hr4ready : Ev.readyCb a.id ∉ tr4 := by
        cases hrc : a.deleted_cb with
        | none =>
          rw [htr4 (by simpa using hrc)]
          simp
        | some c =>
          rw [htr4s c (by simpa using hrc)]
          intro hmem
          rcases List.mem_cons.mp hmem with heq | hmem
          · exact Ev.noConfusion heq
          · exact hready4 hmem
      refine ⟨?_, ?_, ?_, ?_, ?_, ?_, ?_, ?_⟩
      · intro r hr hid
        exact hnomem (hids4 a.id (hid ▸ mem_idsOf hr))
      · refine ⟨tr3, tr4, by rw [hida], ?_, ?_, ?_, ?_⟩
        · intro hnone
          exact htr3 (by simpa using hnone)
        · intro c hc
          exact ⟨trc3, by rw [htr3s c (by simpa using hc), hida]⟩
        · intro hnone
          exact htr4 (by simpa using hnone)
        · intro c hc
          exact ⟨trc4, by rw [htr4s c (by simpa using hc), hida]⟩
      · rw [hida]
        constructor
        · intro hmem
          simp only [List.mem_append, List.mem_cons, List.not_mem_nil, or_false] at hmem
          rcases hmem with ((heq | heq | hmem) | hmem) | heq
          · exact Ev.noConfusion heq
          · exact Ev.noConfusion heq
          · exact hr3mem.mp hmem
          · exact absurd hmem hr4ready
          · exact Ev.noConfusion heq
        · intro hsome
          refine List.mem_append_left _ (List.mem_append_left _ ?_)
          exact List.mem_cons_of_mem _ (List.mem_cons_of_mem _ (hr3mem.mpr hsome))
      · rw [hida]
        constructor
        · intro hmem
          simp only [List.mem_append, List.mem_cons, List.not_mem_nil, or_false] at hmem
          rcases hmem with ((heq | heq | hmem) | hmem) | heq
          · exact Ev.noConfusion heq
          · exact Ev.noConfusion heq
          · exact absurd hmem hr3del
          · exact hr4mem.mp hmem
          · exact Ev.noConfusion heq
        · intro hsome
          refine List.mem_append_left _ (List.mem_append_right _ ?_)
          exact hr4mem.mpr hsome
      · rw [hP4.parity, hP3.parity, markChange_parity]
      · have hflag : (markChange { s with
            anim_ll := removeId (decRepeat a).id s.anim_ll }).anim_list_changed =
            true := markChange_flag _
        exact hP4.flagMono (hP3.flagMono hflag)
      · have hsub := hP4.sub.trans hP3.sub
        rw [markChange_anim_ll] at hsub
        rw [hida] at hsub
        exact hsub
      · intro e he
        rw [hida] at he
        simp only [List.mem_append, List.mem_cons, List.not_mem_nil, or_false] at he
        rcases he with ((heq | heq | hmem) | hmem) | heq
        · subst heq; exact Or.inl rfl
        · subst heq; exact Or.inl rfl
        · cases hrc : a.ready_cb with
          | none =>
            rw [htr3 (by simpa using hrc)] at hmem
            cases hmem
          | some c =>
            rw [htr3s c (by simpa using hrc), hida] at hmem
            rcases List.mem_cons.mp hmem with heq | hmem
            · exact Or.inr heq
            · exact Or.inl (hP3.evKinds _ hmem)
        · cases hrc : a.deleted_cb with
          | none =>
            rw [htr4 (by simpa using hrc)] at hmem
            cases hmem
          | some c =>
            rw [htr4s c (by simpa using hrc)] at hmem
            rcases List.mem_cons.mp hmem with heq | hmem
            · subst heq; exact Or.inl rfl
            · exact Or.inl (hP4.evKinds _ hmem)
        · subst heq; exact Or.inl rfl

/-- Dissection of `anim_ready_handler` in the non-terminal case: nothing is
emitted, the record stays in the registry with the restart fields of
`handlerRestartRec`, and nothing else changes. -/
theorem handler_nonterminal_shape {env : Env} {fuel : Nat} {a : AnimRec}
    {s s' : AnimState} {tr : List Ev}
    (hnt : ¬terminalCond a)
    (h : anim_ready_handler env fuel a s = some (s', tr)) :
    tr = [] ∧
    s' = { s with anim_ll := updRec (handlerRestartRec (decRepeat a)) s.anim_ll } := by
  simp only [anim_ready_handler] at h
  unfold terminalCond at hnt
  rw [if_neg hnt] at h
  injection h with h
  injection h with hs htr
  exact ⟨htr.symm, hs.symm⟩


theorem decRepeat_of_playback {b : AnimRec} (h : b.playback_now = true) :
    decRepeat b = b := by
  unfold decRepeat
  rw [if_neg]
  rintro ⟨hc, _⟩
  rw [h] at hc
  exact Bool.noConfusion hc

theorem handlerRestartRec_fields (a : AnimRec) :
    (handlerRestartRec a).id = a.id ∧
    (handlerRestartRec a).ready_cb = a.ready_cb ∧
    (handlerRestartRec a).deleted_cb = a.deleted_cb ∧
    (handlerRestartRec a).repeat_cnt = a.repeat_cnt ∧
    (handlerRestartRec a).run_round = a.run_round := by
  unfold handlerRestartRec
  by_cases h1 : a.playback_time ≠ 0
  · by_cases h2 : a.playback_now = false <;> simp [h1, h2]
  · simp [h1]

theorem handlerRestartRec_no_playback {a : AnimRec} (h : a.playback_time = 0) :
    handlerRestartRec a = { a with act_time := -(a.repeat_delay : Int) } := by
  unfold handlerRestartRec
  simp [h]

theorem handlerRestartRec_playback {a : AnimRec} (h : a.playback_time ≠ 0) :
    handlerRestartRec a =
      { a with
        act_time := (if a.playback_now = false then -(a.playback_delay : Int)
                     else -(a.repeat_delay : Int)),
        playback_now := !a.playback_now,
        start_value := a.end_value, end_value := a.start_value,
        time := a.playback_time, playback_time := a.time } := by
  unfold handlerRestartRec
  by_cases h2 : a.playback_now = false <;> simp [h, h2]

/-! ### C2 — lifecycle handler, terminal completion -/

/-- C2: a completed record is terminal exactly when, after the forward-leg
decrement, `repeat_cnt = 0` and (no playback is configured or the record is
in the playback leg); terminality coincides with removal from the registry;
and on terminal completion the trace is: unlink, mark structural change,
then `ready_cb`, then `deleted_cb` (each exactly when present, in that
order), then release. -/
theorem C2_ready_handler (env : Env) (fuel : Nat) (a : AnimRec)
    (s s' : AnimState) (tr : List Ev)
    (hmem : a ∈ s.anim_ll)
    (h : anim_ready_handler env fuel a s = some (s', tr)) :
    (terminalCond a ↔ (decRepeat a).repeat_cnt = 0 ∧
      (a.playback_time = 0 ∨ a.playback_now = true)) ∧
    (terminalCond a ↔ ∀ r ∈ s'.anim_ll, r.id ≠ a.id) ∧
    (terminalCond a →
      (∃ trR trD,
        tr = Ev.removed a.id :: Ev.listChanged :: trR ++ trD ++ [Ev.freed a.id] ∧
        (a.ready_cb = none → trR = []) ∧
        (∀ c, a.ready_cb = some c → ∃ t, trR = Ev.readyCb a.id :: t) ∧
        (a.deleted_cb = none → trD = []) ∧
        (∀ c, a.deleted_cb = some c → ∃ t, trD = Ev.deletedCb a.id :: t)) ∧
      (Ev.readyCb a.id ∈ tr ↔ a.ready_cb.isSome = true) ∧
      (Ev.deletedCb a.id ∈ tr ↔ a.deleted_cb.isSome = true)) := by
  refine ⟨?_, ?_, ?_⟩
  · unfold terminalCond
    rw [decRepeat_playback_time, decRepeat_playback_now]
  · constructor
    · intro hterm
      exact (handler_terminal_shape hterm h).1
    · intro hgone
      by_contra hnt
      obtain ⟨_, hs'⟩ := handler_nonterminal_shape hnt h
      have hidr : (handlerRestartRec (decRepeat a)).id = a.id := by
        rw [(handlerRestartRec_fields _).1, decRepeat_id]
      have hmem' : handlerRestartRec (decRepeat a) ∈ s'.anim_ll := by
        rw [hs']
        exact mem_updRec_self hmem hidr.symm
      exact hgone _ hmem' hidr
  · intro hterm
    obtain ⟨_, hshape, hr, hd, _⟩ := handler_terminal_shape hterm h
    exact ⟨hshape, hr, hd⟩

/-! ### C3 — lifecycle handler, non-terminal restart and playback -/

/-- C3: on a non-terminal completion nothing is emitted and the record
stays registered with `elapsed` reset to `-repeat_delay`; when playback is
configured it is instead set to `-playback_delay` on entering the playback
leg, `playback_now` is toggled and the value and duration pairs are
swapped; and in the `repeat_cnt = 1` playback scenario the callbacks fire
only when the reverse leg completes. -/
theorem C3_ready_handler_restart (env : Env) (fuel : Nat) (a : AnimRec)
    (s s' : AnimState) (tr : List Ev)
    (hmem : a ∈ s.anim_ll)
    (hnt : ¬terminalCond a)
    (h : anim_ready_handler env fuel a s = some (s', tr)) :
    tr = [] ∧
    handlerRestartRec (decRepeat a) ∈ s'.anim_ll ∧
    (a.playback_time = 0 →
      handlerRestartRec (decRepeat a) =
        { decRepeat a with act_time := -(a.repeat_delay : Int) }) ∧
    (a.playback_time ≠ 0 →
      (handlerRestartRec (decRepeat a)).act_time =
        (if a.playback_now = false then -(a.playback_delay : Int)
         else -(a.repeat_delay : Int)) ∧
      (handlerRestartRec (decRepeat a)).playback_now = !a.playback_now ∧
      (handlerRestartRec (decRepeat a)).start_value = a.end_value ∧
      (handlerRestartRec (decRepeat a)).end_value = a.start_value ∧
      (handlerRestartRec (decRepeat a)).time = a.playback_time ∧
      (handlerRestartRec (decRepeat a)).playback_time = a.time) ∧
    (a.repeat_cnt = 1 ∧ a.playback_time ≠ 0 ∧ a.playback_now = false →
      Ev.readyCb a.id ∉ tr ∧ Ev.deletedCb a.id ∉ tr ∧
      terminalCond (handlerRestartRec (decRepeat a)) ∧
      ∀ (s2 s2' : AnimState) (tr2 : List Ev),
        anim_ready_handler env fuel (handlerRestartRec (decRepeat a)) s2 =
          some (s2', tr2) →
        (Ev.readyCb a.id ∈ tr2 ↔ a.ready_cb.isSome = true) ∧
        (Ev.deletedCb a.id ∈ tr2 ↔ a.deleted_cb.isSome = true)) := by
  obtain ⟨htr, hs'⟩ := handler_nonterminal_shape hnt h
  have hidr : (handlerRestartRec (decRepeat a)).id = a.id := by
    rw [(handlerRestartRec_fields _).1, decRepeat_id]
  refine ⟨htr, ?_, ?_, ?_, ?_⟩
  · rw [hs']
    exact mem_updRec_self hmem hidr.symm
  · intro hpb
    rw [handlerRestartRec_no_playback (by rw [decRepeat_playback_time]; exact hpb)]
    simp [decRepeat_repeat_delay]
  · intro hpb
    rw [handlerRestartRec_playback (by rw [decRepeat_playback_time]; exact hpb)]
    simp
  · rintro ⟨hcnt, hpb, hfwd⟩
    have hdecnt : (decRepeat a).repeat_cnt = 0 := by
      unfold decRepeat
      rw [if_pos ⟨hfwd, by omega, by rw [hcnt]; unfold LV_ANIM_REPEAT_INFINITE; omega⟩]
      simp [hcnt]
    have hrfields := handlerRestartRec_fields (decRepeat a)
    have hrpb : (handlerRestartRec (decRepeat a)).playback_now = true := by
      rw [handlerRestartRec_playback (by rw [decRepeat_playback_time]; exact hpb)]
      simp [hfwd]
    have hterm2 : terminalCond (handlerRestartRec (decRepeat a)) := by
      unfold terminalCond
      have hnodec : decRepeat (handlerRestartRec (decRepeat a)) =
          handlerRestartRec (decRepeat a) := decRepeat_of_playback hrpb
      rw [hnodec, hrfields.2.2.2.1, hdecnt, hrpb]
      exact ⟨rfl, Or.inr rfl⟩
    refine ⟨by rw [htr]; exact List.not_mem_nil _,
      by rw [htr]; exact List.not_mem_nil _, hterm2, ?_⟩
    intro s2 s2' tr2 h2
    obtain ⟨_, _, hr2, hd2, _⟩ := handler_terminal_shape hterm2 h2
    rw [hidr] at hr2 hd2
    rw [hrfields.2.1, decRepeat_ready_cb] at hr2
    rw [hrfields.2.2.1, decRepeat_deleted_cb] at hd2
    exact ⟨hr2, hd2⟩


/-- Concrete data for C2's and C3's witnesses. -/
def envW : Env := ⟨fun _ => [], fun _ => 0⟩

def aC2 : AnimRec :=
  { lv_anim_init with id := 1, repeat_cnt := 1, ready_cb := some 8,
                      deleted_cb := some 9, time := 1000, act_time := 1000 }

def sC2 : AnimState := ⟨[aC2], false, false, false⟩

def sC2' : AnimState := ⟨[], true, false, true⟩

def trC2w : List Ev :=
  [Ev.removed 1, Ev.listChanged, Ev.readyCb 1, Ev.deletedCb 1, Ev.freed 1]

/-- Witness for C2: at a concrete one-shot record both callbacks fire. -/
theorem C2_ready_handler_witness :
    Ev.readyCb aC2.id ∈ trC2w ∧ Ev.deletedCb aC2.id ∈ trC2w := by
  have h := C2_ready_handler envW 10 aC2 sC2 sC2' trC2w (by decide) (by decide)
  exact ⟨((h.2.2 (by decide)).2.1).mpr (by decide),
         ((h.2.2 (by decide)).2.2).mpr (by decide)⟩

def aC3 : AnimRec :=
  { lv_anim_init with id := 3, repeat_cnt := 1, playback_time := 300,
                      playback_delay := 17, time := 1000, act_time := 1000,
                      ready_cb := some 8, deleted_cb := some 9 }

def sC3 : AnimState := ⟨[aC3], false, false, false⟩

def sC3' : AnimState :=
  ⟨[{ aC3 with start_value := 100, end_value := 0, time := 300,
               act_time := -17, playback_time := 1000, playback_now := true,
               repeat_cnt := 0 }], false, false, false⟩

/-- Witness for C3: the concrete playback record enters the reverse leg
(toggled, swapped, delayed) with no callback fired, and is terminal on the
next completion. -/
theorem C3_ready_handler_restart_witness :
    terminalCond (handlerRestartRec (decRepeat aC3)) ∧
    (handlerRestartRec (decRepeat aC3)).playback_now = !aC3.playback_now ∧
    (handlerRestartRec (decRepeat aC3)).act_time = -(aC3.playback_delay : Int) := by
  have h := C3_ready_handler_restart envW 10 aC3 sC3 sC3' []
    (by decide) (by decide) (by decide)
  refine ⟨(h.2.2.2.2 ⟨by decide, by decide, by decide⟩).2.2.1,
    (h.2.2.2.1 (by decide)).2.1, ?_⟩
  rw [(h.2.2.2.1 (by decide)).1]
  decide


/-! ### C9 — early apply on start -/

/-- Setter-invocation events. -/
def isExecEv : Ev → Bool
  | .execCb _ _ _ => true
  | _ => false

theorem isDelEv_not_exec {e : Ev} (h : isDelEv e = true) : isExecEv e = false := by
  cases e <;> first | rfl | exact Bool.noConfusion h

theorem countP_exec_del_zero {tr : List Ev}
    (h : ∀ e ∈ tr, isDelEv e = true) : tr.countP isExecEv = 0 := by
  rw [List.countP_eq_zero]
  intro e he
  rw [isDelEv_not_exec (h e he)]
  exact Bool.noConfusion

/-- C9 (counterexample): the claim says a bound setter is always invoked
during an early-apply start, but the source guards the call with
`new_anim->exec_cb && new_anim->var`; with a bound setter and a NULL
target, the start succeeds and no setter invocation happens. -/
theorem C9_counterexample :
    ({ lv_anim_init with exec_cb := some 5 } : AnimRec).early_apply = true ∧
    ({ lv_anim_init with exec_cb := some 5 } : AnimRec).exec_cb = some 5 ∧
    lv_anim_start ⟨fun _ => [], fun _ => 0⟩ 10 1
        { lv_anim_init with exec_cb := some 5 } 10 true 0
        ⟨[], false, false, true⟩ =
      some (⟨[{ lv_anim_init with exec_cb := some 5, id := 10 }], true, false,
        false⟩, [Ev.inserted 10, Ev.listChanged], some 10) ∧
    ([Ev.inserted 10, Ev.listChanged] : List Ev).countP isExecEv = 0 := by
  refine ⟨rfl, rfl, by decide, by decide⟩

/-- C9 (amended): for every template with `apply_immediately` set, a bound
setter, and a non-null target, a successful start first reads
`value_offset_cb` (when present) adding its result to both `start_value`
and `end_value`, and then invokes the setter exactly once with the
offset-adjusted `start_value`, all within the start call itself. -/
theorem C9_early_apply (env : Env) (fuel : Nat) (aAddr : Nat) (a : AnimRec)
    (newId aNow : Nat) (s s' : AnimState) (tr : List Ev) (ret : Option Nat)
    (c v : Nat)
    (hearly : a.early_apply = true)
    (hexec : a.exec_cb = some c)
    (hvar : a.var = some v)
    (hfresh : newId ∉ idsOf s.anim_ll)
    (h : lv_anim_start env fuel aAddr a newId true aNow s = some (s', tr, ret)) :
    ret = some newId ∧
    tr.countP isExecEv = 1 ∧
    (a.get_value_cb = none →
      ∃ trDel trc, tr = trDel ++ Ev.inserted newId ::
        (Ev.execCb newId (if a.var = some aAddr then some newId else a.var)
          a.start_value :: trc) ++ [Ev.listChanged]) ∧
    (∀ g, a.get_value_cb = some g →
      ∃ trDel trc, tr = trDel ++ Ev.inserted newId ::
        (Ev.getValueCb newId :: Ev.execCb newId
          (if a.var = some aAddr then some newId else a.var)
          (a.start_value + env.getValue g) :: trc) ++ [Ev.listChanged]) ∧
    (∀ r' ∈ s'.anim_ll, r'.id = newId →
      r'.start_value = a.start_value +
        (match a.get_value_cb with | some g => env.getValue g | none => 0) ∧
      r'.end_value = a.end_value +
        (match a.get_value_cb with | some g => env.getValue g | none => 0)) := by
  simp only [lv_anim_start, hexec] at h
  cases hdel : lv_anim_del env fuel a.var (some c) s with
  | none =>
    simp only [hdel] at h
    exact Option.noConfusion h
  | some pdel =>
    obtain ⟨sD, trDel, bdel⟩ := pdel
    simp only [hdel] at h
    rw [if_neg (by decide : ¬(true = false))] at h
    simp only [hearly, if_true] at h
    have PD := (lv_anim_del_post hdel).1
    have PDsub : sD.anim_ll.Sublist s.anim_ll := PD.sub
    have hDelKinds : ∀ e ∈ trDel, isDelEv e = true := PD.evKinds
    by_cases hs : a.var = some aAddr
    · rw [if_pos hs] at h
      cases hg : a.get_value_cb with
      | some g =>
        simp only [hg] at h
        split at h
        next heq => exact Option.noConfusion h
        next sA trA heq =>
          split at heq
          next hops => exact Option.noConfusion heq
          next s2 trc hops =>
            injection heq with heq
            injection heq with heqA heqT
            subst heqA
            subst heqT
            injection h with h
            injection h with hs' h
            injection h with htr hret
            subst hs'
            subst htr
            subst hret
            have PO := runDelOps_post hops
            have hTrcKinds : ∀ e ∈ trc, isDelEv e = true := PO.evKinds
            refine ⟨rfl, ?_, ?_, ?_, ?_⟩
            · simp only [List.countP_append, List.countP_cons]
              rw [countP_exec_del_zero hDelKinds, countP_exec_del_zero hTrcKinds]
              simp [isExecEv]
            · intro hnone
              exact Option.noConfusion hnone
            · intro g' hg'
              injection hg' with hg'
              subst hg'
              rw [if_pos hs]
              exact ⟨trDel, trc, rfl⟩
            · intro r' hr' hid
              rw [markChange_anim_ll] at hr'
              have hrV := PO.sub.subset hr'
              rcases mem_updRec hrV with heqr | ⟨_, hne⟩
              · subst heqr
                exact ⟨rfl, rfl⟩
              · exact absurd hid hne
      | none =>
        simp only [hg] at h
        split at h
        next heq => exact Option.noConfusion h
        next sA trA heq =>
          split at heq
          next hops => exact Option.noConfusion heq
          next s2 trc hops =>
            injection heq with heq
            injection heq with heqA heqT
            subst heqA
            subst heqT
            injection h with h
            injection h with hs' h
            injection h with htr hret
            subst hs'
            subst htr
            subst hret
            have PO := runDelOps_post hops
            have hTrcKinds : ∀ e ∈ trc, isDelEv e = true := PO.evKinds
            refine ⟨rfl, ?_, ?_, ?_, ?_⟩
            · simp only [List.countP_append, List.countP_cons]
              rw [countP_exec_del_zero hDelKinds, countP_exec_del_zero hTrcKinds]
              simp [isExecEv]
            · intro _
              rw [if_pos hs]
              exact ⟨trDel, trc, rfl⟩
            · intro g' hg'
              exact Option.noConfusion hg'
            · intro r' hr' hid
              rw [markChange_anim_ll] at hr'
              have hrV := PO.sub.subset hr'
              rcases List.mem_cons.mp hrV with heqr | hmem
              · subst heqr
                exact ⟨by simp, by simp⟩
              · have hidsD : r'.id ∈ idsOf sD.anim_ll := mem_idsOf hmem
                rw [hid] at hidsD
                exact absurd ((idsOf_sublist PDsub).subset hidsD) hfresh
    · rw [if_neg hs, hvar] at h
      cases hg : a.get_value_cb with
      | some g =>
        simp only [hg] at h
        split at h
        next heq => exact Option.noConfusion h
        next sA trA heq =>
          split at heq
          next hops => exact Option.noConfusion heq
          next s2 trc hops =>
            injection heq with heq
            injection heq with heqA heqT
            subst heqA
            subst heqT
            injection h with h
            injection h with hs' h
            injection h with htr hret
            subst hs'
            subst htr
            subst hret
            have PO := runDelOps_post hops
            have hTrcKinds : ∀ e ∈ trc, isDelEv e = true := PO.evKinds
            refine ⟨rfl, ?_, ?_, ?_, ?_⟩
            · simp only [List.countP_append, List.countP_cons]
              rw [countP_exec_del_zero hDelKinds, countP_exec_del_zero hTrcKinds]
              simp [isExecEv]
            · intro hnone
              exact Option.noConfusion hnone
            · intro g' hg'
              injection hg' with hg'
              subst hg'
              rw [if_neg hs, hvar]
              exact ⟨trDel, trc, rfl⟩
            · intro r' hr' hid
              rw [markChange_anim_ll] at hr'
              have hrV := PO.sub.subset hr'
              rcases mem_updRec hrV with heqr | ⟨_, hne⟩
              · subst heqr
                exact ⟨rfl, rfl⟩
              · exact absurd hid hne
      | none =>
        simp only [hg] at h
        split at h
        next heq => exact Option.noConfusion h
        next sA trA heq =>
          split at heq
          next hops => exact Option.noConfusion heq
          next s2 trc hops =>
            injection heq with heq
            injection heq with heqA heqT
            subst heqA
            subst heqT
            injection h with h
            injection h with hs' h
            injection h with htr hret
            subst hs'
            subst htr
            subst hret
            have PO := runDelOps_post hops
            have hTrcKinds : ∀ e ∈ trc, isDelEv e = true := PO.evKinds
            refine ⟨rfl, ?_, ?_, ?_, ?_⟩
            · simp only [List.countP_append, List.countP_cons]
              rw [countP_exec_del_zero hDelKinds, countP_exec_del_zero hTrcKinds]
              simp [isExecEv]
            · intro _
              rw [if_neg hs, hvar]
              exact ⟨trDel, trc, rfl⟩
            · intro g' hg'
              exact Option.noConfusion hg'
            · intro r' hr' hid
              rw [markChange_anim_ll] at hr'
              have hrV := PO.sub.subset hr'
              rcases List.mem_cons.mp hrV with heqr | hmem
              · subst heqr
                exact ⟨by simp, by simp⟩
              · have hidsD : r'.id ∈ idsOf sD.anim_ll := mem_idsOf hmem
                rw [hid] at hidsD
                exact absurd ((idsOf_sublist PDsub).subset hidsD) hfresh


/-- Concrete data for C9's witness: offset 7 is read and the setter is
invoked once with the adjusted start value. -/
def envC9w : Env := ⟨fun _ => [], fun _ => 7⟩

def aC9w : AnimRec :=
  { lv_anim_init with var := some 100, exec_cb := some 5, get_value_cb := some 20 }

def trC9w : List Ev :=
  [Ev.inserted 10, Ev.getValueCb 10, Ev.execCb 10 (some 100) 7, Ev.listChanged]

def sC9w' : AnimState :=
  ⟨[{ aC9w with id := 10, start_value := 7, end_value := 107 }], true, false, false⟩

theorem C9_early_apply_witness : List.countP isExecEv trC9w = 1 := by
  have h := C9_early_apply envC9w 50 1 aC9w 10 0 ⟨[], false, false, true⟩
    sC9w' trC9w (some 10) 5 100 (by decide) (by decide) (by decide)
    (by decide) (by decide)
  exact h.2.1

/-! ### C10 — duplicate removal precedes allocation -/

/-- C10: with a bound setter, a start whose allocation fails returns the
null handle having already run the duplicate removal: the final state is
exactly the `lv_anim_del` result, no record matching `(var, exec_cb)`
remains, nothing was inserted, the registry shrank whenever a match
existed, and each removed match got its `removed`/`deletedCb` events. -/
theorem C10_start_alloc_failure (env : Env) (fuel : Nat) (aAddr : Nat)
    (a : AnimRec) (newId aNow : Nat) (s s' : AnimState) (tr : List Ev)
    (ret : Option Nat) (c : Nat)
    (hexec : a.exec_cb = some c)
    (hn : (idsOf s.anim_ll).Nodup)
    (h : lv_anim_start env fuel aAddr a newId false aNow s = some (s', tr, ret)) :
    ret = none ∧
    (∃ b, lv_anim_del env fuel a.var (some c) s = some (s', tr, b)) ∧
    (∀ r ∈ s'.anim_ll, matchesDel a.var (some c) r = false) ∧
    idsOf s'.anim_ll ⊆ idsOf s.anim_ll ∧
    ((∃ r ∈ s.anim_ll, matchesDel a.var (some c) r = true) →
      s'.anim_ll.length < s.anim_ll.length) ∧
    (∀ r ∈ s.anim_ll, matchesDel a.var (some c) r = true →
      Ev.removed r.id ∈ tr ∧
      ∀ c2, r.deleted_cb = some c2 → Ev.deletedCb r.id ∈ tr) := by
  simp only [lv_anim_start, hexec] at h
  cases hdel : lv_anim_del env fuel a.var (some c) s with
  | none =>
    simp only [hdel] at h
    exact Option.noConfusion h
  | some pdel =>
    obtain ⟨sD, trDel, bdel⟩ := pdel
    simp only [hdel] at h
    injection h with h
    injection h with hs' h
    injection h with htr hret
    subst hs'
    subst htr
    subst hret
    obtain ⟨PD, _, hnm, _⟩ := lv_anim_del_post hdel
    have PDsub : sD.anim_ll.Sublist s.anim_ll := PD.sub
    have hfinal : ∀ r ∈ sD.anim_ll, matchesDel a.var (some c) r = false := by
      apply hnm hn
      intro r hr habs
      exact absurd (mem_idsOf hr) habs
    have hgone : ∀ r ∈ s.anim_ll, matchesDel a.var (some c) r = true →
        r ∉ sD.anim_ll := by
      intro r hr hm hr'
      rw [hfinal r hr'] at hm
      exact Bool.noConfusion hm
    refine ⟨rfl, ⟨bdel, rfl⟩, hfinal, (idsOf_sublist PDsub).subset, ?_, ?_⟩
    · rintro ⟨r, hr, hm⟩
      exact (sublist_lt_iff_missing PDsub (hn.of_map _)).mpr
        ⟨r, hr, hgone r hr hm⟩
    · intro r hr hm
      exact PD.remEv hn r hr (hgone r hr hm)

/-- Concrete data for C10's witness. -/
def envC10 : Env := ⟨fun _ => [], fun _ => 7⟩

def aC10t : AnimRec := { lv_anim_init with var := some 100, exec_cb := some 5, time := 1000 }

def rC10 : AnimRec :=
  { lv_anim_init with id := 4, var := some 100, exec_cb := some 5, deleted_cb := some 9 }

def trC10w : List Ev :=
  [Ev.removed 4, Ev.deletedCb 4, Ev.freed 4, Ev.listChanged]

theorem C10_start_alloc_failure_witness :
    Ev.removed rC10.id ∈ trC10w ∧ Ev.deletedCb rC10.id ∈ trC10w := by
  have h := C10_start_alloc_failure envC10 50 1 aC10t 10 0
    ⟨[rC10], false, false, false⟩ ⟨[], true, false, true⟩ trC10w none 5
    (by decide) (by decide) (by decide)
  have h6 := h.2.2.2.2.2 rC10 (by decide) (by decide)
  exact ⟨h6.1, h6.2 9 (by decide)⟩


/-! ### C4 — uniqueness of a (target, setter) pair -/

theorem updRec_not_mem {b : AnimRec} {l : List AnimRec}
    (h : b.id ∉ idsOf l) : updRec b l = l := by
  unfold updRec
  have hcong : ∀ r ∈ l, (if r.id = b.id then b else r) = r := by
    intro r hr
    rw [if_neg]
    intro he
    exact h (he ▸ mem_idsOf hr)
  rw [List.map_congr_left hcong]
  simp

theorem updRec_cons_fresh {b x : AnimRec} {l : List AnimRec}
    (hx : x.id = b.id) (h : b.id ∉ idsOf l) :
    updRec b (x :: l) = b :: l := by
  show (x :: l).map _ = _
  rw [List.map_cons, if_pos hx]
  exact congrArg _ (updRec_not_mem h)

/-- Number of live records with exactly this `(var, exec_cb)` pair. -/
def pairCount (var cb : Option Nat) (l : List AnimRec) : Nat :=
  l.countP (fun r => r.var == var && r.exec_cb == cb)

theorem pair_matches {var cb : Option Nat} {r : AnimRec}
    (h : (r.var == var && r.exec_cb == cb) = true) :
    matchesDel var cb r = true := by
  unfold matchesDel
  simp only [Bool.and_eq_true, Bool.or_eq_true, beq_iff_eq] at h ⊢
  exact ⟨Or.inl h.1, Or.inl h.2⟩

theorem pairCount_zero {var cb : Option Nat} {l : List AnimRec}
    (h : ∀ r ∈ l, matchesDel var cb r = false) : pairCount var cb l = 0 := by
  rw [pairCount, List.countP_eq_zero]
  intro r hr hm
  have hmm := pair_matches hm
  rw [h r hr] at hmm
  exact Bool.noConfusion hmm

/-- Core dissection of a successful `lv_anim_start` with a bound setter and
a non-self-referential target: the duplicate delete ran first, and the
registry afterwards is the new record consed onto the delete's result
(minus whatever a reentrant setter deleted). -/
theorem start_success_core (env : Env) (fuel : Nat) (aAddr : Nat)
    (a : AnimRec) (newId aNow : Nat) (s s' : AnimState) (tr : List Ev)
    (ret : Option Nat) (c : Nat)
    (hexec : a.exec_cb = some c)
    (hsent : a.var ≠ some aAddr)
    (hfresh : newId ∉ idsOf s.anim_ll)
    (h : lv_anim_start env fuel aAddr a newId true aNow s = some (s', tr, ret)) :
    ret = some newId ∧
    ∃ sD trDel bd naX,
      lv_anim_del env fuel a.var (some c) s = some (sD, trDel, bd) ∧
      naX.var = a.var ∧ naX.exec_cb = some c ∧ naX.id = newId ∧
      s'.anim_ll.Sublist (naX :: sD.anim_ll) ∧
      (env.cbOps c = [] → s'.anim_ll = naX :: sD.anim_ll) := by
  simp only [lv_anim_start, hexec] at h
  rw [if_neg hsent] at h
  cases hdel : lv_anim_del env fuel a.var (some c) s with
  | none =>
    simp only [hdel] at h
    exact Option.noConfusion h
  | some pdel =>
    obtain ⟨sD, trDel, bdel⟩ := pdel
    simp only [hdel] at h
    rw [if_neg (by decide : ¬(true = false))] at h
    have PDsub : sD.anim_ll.Sublist s.anim_ll := (lv_anim_del_post hdel).1.sub
    have hfreshD : newId ∉ idsOf sD.anim_ll :=
      fun hmem => hfresh ((idsOf_sublist PDsub).subset hmem)
    by_cases he : a.early_apply = true
    · simp only [he, if_true] at h
      cases hv : a.var with
      | some v =>
        rw [hv] at h
        cases hg : a.get_value_cb with
        | some g =>
          simp only [hg] at h
          have hupd : updRec
              { a with id := newId, var := some v, exec_cb := some c,
                       get_value_cb := some g,
                       start_value := a.start_value + env.getValue g,
                       end_value := a.end_value + env.getValue g,
                       early_apply := true, run_round := sD.anim_run_round,
                       last_timer_run := aNow }
              ({ a with id := newId, var := some v, exec_cb := some c,
                        get_value_cb := some g, early_apply := true,
                        run_round := sD.anim_run_round,
                        last_timer_run := aNow } :: sD.anim_ll) =
              { a with id := newId, var := some v, exec_cb := some c,
                       get_value_cb := some g,
                       start_value := a.start_value + env.getValue g,
                       end_value := a.end_value + env.getValue g,
                       early_apply := true, run_round := sD.anim_run_round,
                       last_timer_run := aNow } :: sD.anim_ll :=
            updRec_cons_fresh rfl hfreshD
          split at h
          next heq => exact Option.noConfusion h
          next sA trA heq =>
            split at heq
            next hops => exact Option.noConfusion heq
            next s2 trc hops =>
              injection heq with heq
              injection heq with heqA heqT
              subst heqA
              subst heqT
              injection h with h
              injection h with hs' h
              injection h with htr hret
              subst hs'
              subst htr
              subst hret
              have PO := runDelOps_post hops
              refine ⟨rfl, sD, trDel, bdel,
                { a with id := newId, var := some v, exec_cb := some c,
                         get_value_cb := some g,
                         start_value := a.start_value + env.getValue g,
                         end_value := a.end_value + env.getValue g,
                         early_apply := true,
                         run_round := sD.anim_run_round,
                         last_timer_run := aNow },
                rfl, rfl, rfl, rfl, ?_, ?_⟩
              · rw [markChange_anim_ll]
                refine PO.sub.trans ?_
                rw [hupd]
              · intro hops0
                rw [hops0] at hops
                cases fuel with
                | zero => exact Option.noConfusion hops
                | succ n =>
                  simp only [runDelOps, Option.some.injEq, Prod.mk.injEq] at hops
                  rw [markChange_anim_ll, ← hops.1]
                  exact hupd
        | none =>
          simp only [hg] at h
          split at h
          next heq => exact Option.noConfusion h
          next sA trA heq =>
            split at heq
            next hops => exact Option.noConfusion heq
            next s2 trc hops =>
              injection heq with heq
              injection heq with heqA heqT
              subst heqA
              subst heqT
              injection h with h
              injection h with hs' h
              injection h with htr hret
              subst hs'
              subst htr
              subst hret
              have PO := runDelOps_post hops
              refine ⟨rfl, sD, trDel, bdel,
                { a with id := newId, var := some v, exec_cb := some c,
                         get_value_cb := none, early_apply := true,
                         run_round := sD.anim_run_round,
                         last_timer_run := aNow },
                rfl, rfl, rfl, rfl, ?_, ?_⟩
              · rw [markChange_anim_ll]
                exact PO.sub
              · intro hops0
                rw [hops0] at hops
                cases fuel with
                | zero => exact Option.noConfusion hops
                | succ n =>
                  simp only [runDelOps, Option.some.injEq, Prod.mk.injEq] at hops
                  rw [markChange_anim_ll, ← hops.1]
      | none =>
        rw [hv] at h
        cases hg : a.get_value_cb with
        | some g =>
          simp only [hg] at h
          injection h with h
          injection h with hs' h
          injection h with htr hret
          subst hs'
          subst htr
          subst hret
          have hupd : updRec
              { a with id := newId, var := none, exec_cb := some c,
                       get_value_cb := some g,
                       start_value := a.start_value + env.getValue g,
                       end_value := a.end_value + env.getValue g,
                       early_apply := true, run_round := sD.anim_run_round,
                       last_timer_run := aNow }
              ({ a with id := newId, var := none, exec_cb := some c,
                        get_value_cb := some g, early_apply := true,
                        run_round := sD.anim_run_round,
                        last_timer_run := aNow } :: sD.anim_ll) =
              { a with id := newId, var := none, exec_cb := some c,
                       get_value_cb := some g,
                       start_value := a.start_value + env.getValue g,
                       end_value := a.end_value + env.getValue g,
                       early_apply := true, run_round := sD.anim_run_round,
                       last_timer_run := aNow } :: sD.anim_ll :=
            updRec_cons_fresh rfl hfreshD
          refine ⟨rfl, sD, trDel, bdel,
            { a with id := newId, var := none, exec_cb := some c,
                     get_value_cb := some g,
                     start_value := a.start_value + env.getValue g,
                     end_value := a.end_value + env.getValue g,
                     early_apply := true, run_round := sD.anim_run_round,
                     last_timer_run := aNow },
            rfl, rfl, rfl, rfl, ?_, ?_⟩
          · rw [markChange_anim_ll, hupd]
          · intro _
            rw [markChange_anim_ll]
            exact hupd
        | none =>
          simp only [hg] at h
          injection h with h
          injection h with hs' h
          injection h with htr hret
          subst hs'
          subst htr
          subst hret
          refine ⟨rfl, sD, trDel, bdel,
            { a with id := newId, var := none, exec_cb := some c,
                     get_value_cb := none, early_apply := true,
                     run_round := sD.anim_run_round,
                     last_timer_run := aNow },
            rfl, rfl, rfl, rfl, ?_, ?_⟩
          · rw [markChange_anim_ll]
          · intro _
            rw [markChange_anim_ll]
    · rw [if_neg he] at h
      injection h with h
      injection h with hs' h
      injection h with htr hret
      subst hs'
      subst htr
      subst hret
      refine ⟨rfl, sD, trDel, bdel,
        { a with id := newId, var := a.var, exec_cb := some c,
                 run_round := sD.anim_run_round, last_timer_run := aNow },
        rfl, rfl, rfl, rfl, ?_, ?_⟩
      · rw [markChange_anim_ll]
      · intro _
        rw [markChange_anim_ll]

/-- C4: starting a template with a non-null setter first removes every
record with the same `(target, setter)` pair, so right after the start at
most one such record is live (exactly one when the setter performs no
reentrant deletes), and two successive starts with the same pair beginning
from an empty registry leave `count() = 1`. -/
theorem C4_start_unique (env : Env) (fuel : Nat) (aAddr : Nat) (a : AnimRec)
    (newId aNow : Nat) (s s' : AnimState) (tr : List Ev) (ret : Option Nat)
    (c : Nat)
    (hexec : a.exec_cb = some c)
    (hsent : a.var ≠ some aAddr)
    (hn : (idsOf s.anim_ll).Nodup)
    (hfresh : newId ∉ idsOf s.anim_ll)
    (h : lv_anim_start env fuel aAddr a newId true aNow s = some (s', tr, ret)) :
    pairCount a.var (some c) s'.anim_ll ≤ 1 ∧
    (env.cbOps c = [] → pairCount a.var (some c) s'.anim_ll = 1) ∧
    (s.anim_ll = [] → env.cbOps c = [] →
      ∀ (aAddr2 : Nat) (a2 : AnimRec) (newId2 aNow2 : Nat) (s2' : AnimState)
        (tr2 : List Ev) (ret2 : Option Nat),
        a2.exec_cb = some c → a2.var = a.var → a2.var ≠ some aAddr2 →
        newId2 ∉ idsOf s'.anim_ll →
        lv_anim_start env fuel aAddr2 a2 newId2 true aNow2 s' =
          some (s2', tr2, ret2) →
        lv_anim_count_running s2' = 1) := by
  obtain ⟨hret, sD, trDel, bd, naX, hdel, hvarX, hexecX, hidX, hsub, heq⟩ :=
    start_success_core env fuel aAddr a newId aNow s s' tr ret c hexec hsent
      hfresh h
  have hDfinal : ∀ r ∈ sD.anim_ll, matchesDel a.var (some c) r = false := by
    obtain ⟨_, _, hnm, _⟩ := lv_anim_del_post hdel
    apply hnm hn
    intro r hr habs
    exact absurd (mem_idsOf hr) habs
  have hD0 : pairCount a.var (some c) sD.anim_ll = 0 := pairCount_zero hDfinal
  have hcons : pairCount a.var (some c) (naX :: sD.anim_ll) = 1 := by
    rw [pairCount, List.countP_cons]
    rw [pairCount] at hD0
    rw [hD0]
    simp [hvarX, hexecX]
  refine ⟨?_, ?_, ?_⟩
  · calc pairCount a.var (some c) s'.anim_ll
        ≤ pairCount a.var (some c) (naX :: sD.anim_ll) := hsub.countP_le _
      _ = 1 := hcons
  · intro hops0
    rw [pairCount, heq hops0, ← pairCount]
    exact hcons
  · intro hempty hops0 aAddr2 a2 newId2 aNow2 s2' tr2 ret2 hexec2 hvar2
      hsent2 hfresh2 h2
    have hDempty : sD.anim_ll = [] := by
      have hsubD := (lv_anim_del_post hdel).1.sub
      rw [hempty] at hsubD
      exact List.sublist_nil.mp hsubD
    have hs'1 : s'.anim_ll = [naX] := by rw [heq hops0, hDempty]
    obtain ⟨_, sD2, trDel2, bd2, naX2, hdel2, _, _, _, hsub2, heq2⟩ :=
      start_success_core env fuel aAddr2 a2 newId2 aNow2 s' s2' tr2 ret2 c
        hexec2 hsent2 hfresh2 h2
    have hn2 : (idsOf s'.anim_ll).Nodup := by
      rw [hs'1]
      exact List.nodup_singleton _
    have hD2final : ∀ r ∈ sD2.anim_ll, matchesDel a2.var (some c) r = false := by
      obtain ⟨_, _, hnm2, _⟩ := lv_anim_del_post hdel2
      apply hnm2 hn2
      intro r hr habs
      exact absurd (mem_idsOf hr) habs
    have hmatchX : matchesDel a2.var (some c) naX = true := by
      apply pair_matches
      simp [hvarX, hvar2, hexecX]
    have hXnot : naX ∉ sD2.anim_ll := by
      intro hmem
      rw [hD2final naX hmem] at hmatchX
      exact Bool.noConfusion hmatchX
    have hD2sub : sD2.anim_ll.Sublist s'.anim_ll :=
      (lv_anim_del_post hdel2).1.sub
    have hD2empty : sD2.anim_ll = [] := by
      rw [hs'1] at hD2sub
      cases hl : sD2.anim_ll with
      | nil => rfl
      | cons y ys =>
        exfalso
        rw [hl] at hD2sub
        have hy : y ∈ [naX] := hD2sub.subset (List.mem_cons_self _ _)
        have hyX : y = naX := by simpa using hy
        apply hXnot
        rw [hl, hyX]
        exact List.mem_cons_self _ _
    have hs2'1 : s2'.anim_ll = [naX2] := by rw [heq2 hops0, hD2empty]
    rw [lv_anim_count_running, hs2'1]
    norm_num

/-- Concrete data for C4's witness: two starts of the same
`(target 100, setter 5)` pair from an empty registry. -/
def envC4 : Env := ⟨fun _ => [], fun _ => 7⟩

def aC4 : AnimRec := { lv_anim_init with var := some 100, exec_cb := some 5, time := 1000 }

def sC4a : AnimState := ⟨[{ aC4 with id := 10 }], true, false, false⟩

def sC4b : AnimState := ⟨[{ aC4 with id := 11 }], true, false, false⟩

def trC4a : List Ev := [Ev.inserted 10, Ev.execCb 10 (some 100) 0, Ev.listChanged]

def trC4b : List Ev :=
  [Ev.removed 10, Ev.freed 10, Ev.listChanged, Ev.inserted 11,
   Ev.execCb 11 (some 100) 0, Ev.listChanged]

theorem C4_start_unique_witness : lv_anim_count_running sC4b = 1 := by
  have h := C4_start_unique envC4 50 1 aC4 10 0 ⟨[], false, false, true⟩
    sC4a trC4a (some 10) 5 (by decide) (by decide) (by decide) (by decide)
    (by decide)
  exact h.2.2 (by decide) (by decide) 1 aC4 11 0 sC4b trC4b (some 11)
    (by decide) (by decide) (by decide) (by decide) (by decide)


/-! ### The per-tick advance guarantee (C1) -/

/-- The event one `anim_timer` loop iteration emits when it advances a
record's elapsed time. -/
def isAdvEv : Ev → Bool
  | .advanced _ => true
  | _ => false

/-- How many times the trace advances the record with identity `id`. -/
def advCount (id : Nat) (tr : List Ev) : Nat :=
  tr.countP (fun e => decide (e = Ev.advanced id))

theorem advCount_append (id : Nat) (t1 t2 : List Ev) :
    advCount id (t1 ++ t2) = advCount id t1 + advCount id t2 :=
  List.countP_append _ _ _

theorem advCount_eq_zero {id : Nat} {tr : List Ev}
    (h : ∀ e ∈ tr, isAdvEv e = false) : advCount id tr = 0 := by
  rw [advCount, List.countP_eq_zero]
  intro e he hd
  have he' : e = Ev.advanced id := by simpa using hd
  subst he'
  have := h _ he
  simp [isAdvEv] at this

theorem advCount_cons_adv {id rid : Nat} {tl : List Ev}
    (h : ∀ e ∈ tl, isAdvEv e = false) :
    advCount id (Ev.advanced rid :: tl) = if id = rid then 1 else 0 := by
  have h0 : advCount id tl = 0 := advCount_eq_zero h
  rw [advCount, List.countP_cons, ← advCount, h0]
  by_cases hid : id = rid
  · simp [hid]
  · have : ¬(rid = id) := fun hh => hid hh.symm
    simp [hid, this]

/-- Invariant carried through the stages of one loop-iteration body: the
parity is untouched, no identity appears that was not already registered,
every registry copy of the stepped identity `rid` equals the current
working record `a` (already stamped with the parity `P`), and every other
record is an unchanged member of the original registry. -/
def MidInv (rid : Nat) (P : Bool) (base : List AnimRec) (a : AnimRec)
    (s : AnimState) : Prop :=
  s.anim_run_round = P ∧
  (idsOf s.anim_ll).Sublist (idsOf base) ∧
  a.id = rid ∧ a.run_round = P ∧
  (∀ r' ∈ s.anim_ll, r'.id = rid → r' = a) ∧
  (∀ r' ∈ s.anim_ll, r'.id ≠ rid → r' ∈ base)

theorem mid_updRec {rid : Nat} {P : Bool} {base : List AnimRec}
    {a a' : AnimRec} {s s' : AnimState}
    (h : MidInv rid P base a s)
    (hid : a'.id = rid) (hrr : a'.run_round = P)
    (hpar : s'.anim_run_round = s.anim_run_round)
    (hll : s'.anim_ll = updRec a' s.anim_ll) :
    MidInv rid P base a' s' := by
  obtain ⟨hP, hsub, _, _, _, hother⟩ := h
  refine ⟨hpar.trans hP, ?_, hid, hrr, ?_, ?_⟩
  · rw [hll, idsOf_updRec]
    exact hsub
  · intro r' hr' hrid
    rw [hll] at hr'
    rcases mem_updRec hr' with h | ⟨_, hne⟩
    · exact h
    · rw [hid] at hne
      exact absurd hrid hne
  · intro r' hr' hne
    rw [hll] at hr'
    rcases mem_updRec hr' with h | ⟨hmem, _⟩
    · exact absurd (h ▸ hid) hne
    · exact hother r' hmem hne

theorem mid_shrink {rid : Nat} {P : Bool} {base : List AnimRec}
    {a : AnimRec} {s s' : AnimState}
    (h : MidInv rid P base a s)
    (hsub : s'.anim_ll.Sublist s.anim_ll)
    (hpar : s'.anim_run_round = s.anim_run_round) :
    MidInv rid P base a s' := by
  obtain ⟨hP, hids, hid, hrr, hcopy, hother⟩ := h
  exact ⟨hpar.trans hP, (idsOf_sublist hsub).trans hids, hid, hrr,
    fun r' hr' he => hcopy r' (hsub.subset hr') he,
    fun r' hr' hne => hother r' (hsub.subset hr') hne⟩

/-- What one optional-callback invocation guarantees: the parity is kept,
the survivors are a sublist, and the trace is the callback's own event
followed by deletion events only. -/
theorem runCb_bundle {env : Env} {fuel : Nat} {cb : Option Nat} {ev : Ev}
    {s s' : AnimState} {tr : List Ev}
    (h : runCb env fuel cb ev s = some (s', tr)) :
    s'.anim_run_round = s.anim_run_round ∧
    s'.anim_ll.Sublist s.anim_ll ∧
    ∀ e ∈ tr, e = ev ∨ isDelEv e = true := by
  cases cb with
  | none =>
    simp only [runCb, Option.some.injEq, Prod.mk.injEq] at h
    obtain ⟨h1, h2⟩ := h
    subst h1; subst h2
    exact ⟨rfl, List.Sublist.refl _, by intro e he; cases he⟩
  | some c =>
    simp only [runCb] at h
    cases hops : runDelOps env fuel (env.cbOps c) s with
    | none => rw [hops] at h; cases h
    | some out =>
      rw [hops] at h
      simp only [Option.some.injEq, Prod.mk.injEq] at h
      obtain ⟨h1, h2⟩ := h
      have hpost := (del_mutual fuel).2 env _ _ _ hops
      subst h1
      refine ⟨hpost.parity, hpost.sub, ?_⟩
      intro e he
      rw [← h2] at he
      cases he with
      | head => exact Or.inl rfl
      | tail _ he2 => exact Or.inr (hpost.evKinds e he2)

theorem del_ev_not_adv {e : Ev} (h : isDelEv e = true) : isAdvEv e = false := by
  cases e <;> simp_all [isDelEv, isAdvEv]

theorem runCb_no_adv {env : Env} {fuel : Nat} {cb : Option Nat} {ev : Ev}
    {s s' : AnimState} {tr : List Ev}
    (h : runCb env fuel cb ev s = some (s', tr)) (hev : isAdvEv ev = false) :
    ∀ e ∈ tr, isAdvEv e = false := by
  intro e he
  rcases (runCb_bundle h).2.2 e he with h | h
  · rw [h]; exact hev
  · exact del_ev_not_adv h


theorem handlerRestartRec_id (a : AnimRec) :
    (handlerRestartRec a).id = a.id := by
  simp only [handlerRestartRec]
  split
  · split <;> rfl
  · rfl

theorem handlerRestartRec_run_round (a : AnimRec) :
    (handlerRestartRec a).run_round = a.run_round := by
  simp only [handlerRestartRec]
  split
  · split <;> rfl
  · rfl

/-- What `anim_ready_handler` guarantees to the ticking loop: the
iteration invariant survives (the restarted record replacing the working
one), and the trace holds no `advanced` event. -/
theorem handler_tick_post {env : Env} {fuel : Nat} {a : AnimRec}
    {s s' : AnimState} {tr : List Ev} {rid : Nat} {P : Bool}
    {base : List AnimRec}
    (hmid : MidInv rid P base a s)
    (h : anim_ready_handler env fuel a s = some (s', tr)) :
    MidInv rid P base (handlerRestartRec (decRepeat a)) s' ∧
    ∀ e ∈ tr, isAdvEv e = false := by
  have hidH : (handlerRestartRec (decRepeat a)).id = rid := by
    rw [handlerRestartRec_id, decRepeat_id]
    exact hmid.2.2.1
  have hrrH : (handlerRestartRec (decRepeat a)).run_round = P := by
    rw [handlerRestartRec_run_round, decRepeat_run_round]
    exact hmid.2.2.2.1
  simp only [anim_ready_handler] at h
  split at h
  · -- terminal: remove, mark, ready_cb, deleted_cb
    cases h3 : runCb env fuel (decRepeat a).ready_cb
        (Ev.readyCb (decRepeat a).id)
        (markChange { s with anim_ll := removeId (decRepeat a).id s.anim_ll })
        with
    | none => rw [h3] at h; cases h
    | some o3 =>
      obtain ⟨s3, tr3⟩ := o3
      rw [h3] at h
      simp only [] at h
      cases h4 : runCb env fuel (decRepeat a).deleted_cb
          (Ev.deletedCb (decRepeat a).id) s3 with
      | none => rw [h4] at h; cases h
      | some o4 =>
        obtain ⟨s4, tr4⟩ := o4
        rw [h4] at h
        simp only [Option.some.injEq, Prod.mk.injEq] at h
        obtain ⟨hs', htr⟩ := h
        obtain ⟨b3par, b3sub, _⟩ := runCb_bundle h3
        obtain ⟨b4par, b4sub, _⟩ := runCb_bundle h4
        have hsub1 : s4.anim_ll.Sublist
            (removeId (decRepeat a).id s.anim_ll) := by
          have := b4sub.trans b3sub
          rwa [markChange_anim_ll] at this
        have hnone : ∀ r' ∈ s4.anim_ll, r'.id ≠ rid := by
          intro r' hr'
          have hmem := hsub1.subset hr'
          rw [removeId, List.mem_filter] at hmem
          have := hmem.2
          rw [decRepeat_id] at this
          rw [hmid.2.2.1] at this
          simpa using this
        constructor
        · subst hs'
          refine ⟨?_, ?_, hidH, hrrH, ?_, ?_⟩
          · rw [b4par, b3par, markChange_parity]
            exact hmid.1
          · refine List.Sublist.trans ?_ hmid.2.1
            refine idsOf_sublist (hsub1.trans ?_)
            exact List.filter_sublist _
          · intro r' hr' hrid
            exact absurd hrid (hnone r' hr')
          · intro r' hr' hne
            have hmem := hsub1.subset hr'
            rw [removeId, List.mem_filter] at hmem
            exact hmid.2.2.2.2.2 r' hmem.1 hne
        · intro e he
          rw [← htr] at he
          have hr3 : ∀ e ∈ tr3, isAdvEv e = false :=
            runCb_no_adv h3 (by rfl)
          have hr4 : ∀ e ∈ tr4, isAdvEv e = false :=
            runCb_no_adv h4 (by rfl)
          rcases he with _ | ⟨_, he⟩
          · rfl
          rcases he with _ | ⟨_, he⟩
          · rfl
          rcases List.mem_append.mp he with he | he
          · rcases List.mem_append.mp he with he | he
            · exact hr3 e he
            · exact hr4 e he
          · have : e = Ev.freed (decRepeat a).id := by simpa using he
            rw [this]; rfl
  · -- non-terminal: in-place restart, no events
    simp only [Option.some.injEq, Prod.mk.injEq] at h
    obtain ⟨hs', htr⟩ := h
    constructor
    · refine mid_updRec hmid hidH hrrH ?_ ?_
      · rw [← hs']
      · rw [← hs']
    · intro e he
      rw [← htr] at he
      cases he


/-- What one loop-iteration body guarantees: parity untouched, no new
identities, an `advanced` event exactly for a pending stepped record,
every surviving copy of the stepped identity stamped with the parity, all
other survivors unchanged members, and any record the step did not advance
keeping its `run_round`. -/
structure StepPost (r : AnimRec) (s0 s1 : AnimState) (tr1 : List Ev) : Prop where
  parity : s1.anim_run_round = s0.anim_run_round
  idsSub : (idsOf s1.anim_ll).Sublist (idsOf s0.anim_ll)
  adv : ∀ id, advCount id tr1 =
      if r.run_round ≠ s0.anim_run_round ∧ id = r.id then 1 else 0
  stamped : ∀ r' ∈ s1.anim_ll, r'.id = r.id → r'.run_round = s0.anim_run_round
  survivors : ∀ r' ∈ s1.anim_ll, r'.id ≠ r.id → r' ∈ s0.anim_ll
  unmoved : ∀ r' ∈ s1.anim_ll,
      ¬(r.run_round ≠ s0.anim_run_round ∧ r'.id = r.id) →
      ∃ r0 ∈ s0.anim_ll, r0.id = r'.id ∧ r0.run_round = r'.run_round

theorem mid_init2 {rid : Nat} {P : Bool} {l : List AnimRec} {a1 a2 : AnimRec}
    (hid1 : a1.id = rid) (hid : a2.id = rid) (hrr : a2.run_round = P)
    {s' : AnimState} (hpar : s'.anim_run_round = P)
    (hll : s'.anim_ll = updRec a2 (updRec a1 l)) :
    MidInv rid P l a2 s' := by
  refine ⟨hpar, ?_, hid, hrr, ?_, ?_⟩
  · rw [hll, idsOf_updRec, idsOf_updRec]
  · intro r' hr' hrid
    rw [hll] at hr'
    rcases mem_updRec hr' with h | ⟨_, hne⟩
    · exact h
    · rw [hid] at hne
      exact absurd hrid hne
  · intro r' hr' hne
    rw [hll] at hr'
    rcases mem_updRec hr' with h | ⟨hm, _⟩
    · exact absurd (h ▸ hid) hne
    · rcases mem_updRec hm with h2 | ⟨hm2, _⟩
      · exact absurd (h2 ▸ hid1) hne
      · exact hm2

theorem mid_runCb {env : Env} {fuel : Nat} {cb : Option Nat} {ev : Ev}
    {s s' : AnimState} {tr : List Ev} {rid : Nat} {P : Bool}
    {base : List AnimRec} {a : AnimRec}
    (h : runCb env fuel cb ev s = some (s', tr))
    (hmid : MidInv rid P base a s) : MidInv rid P base a s' :=
  mid_shrink hmid (runCb_bundle h).2.1 (runCb_bundle h).1

theorem mid_delops {env : Env} {fuel : Nat} {ops : List DelOp}
    {s s' : AnimState} {tr : List Ev} {rid : Nat} {P : Bool}
    {base : List AnimRec} {a : AnimRec}
    (h : runDelOps env fuel ops s = some (s', tr))
    (hmid : MidInv rid P base a s) :
    MidInv rid P base a s' ∧ ∀ e ∈ tr, isAdvEv e = false := by
  have hpost := (del_mutual fuel).2 env _ _ _ h
  exact ⟨mid_shrink hmid hpost.sub hpost.parity,
    fun e he => del_ev_not_adv (hpost.evKinds e he)⟩

theorem mid_upd2 {rid : Nat} {P : Bool} {base : List AnimRec}
    {a a1 a2 : AnimRec} {s s' : AnimState} (h : MidInv rid P base a s)
    (hid1 : a1.id = rid) (hrr1 : a1.run_round = P)
    (hid2 : a2.id = rid) (hrr2 : a2.run_round = P)
    (hpar : s'.anim_run_round = s.anim_run_round)
    (hll : s'.anim_ll = updRec a2 (updRec a1 s.anim_ll)) :
    MidInv rid P base a2 s' := by
  have h1 : MidInv rid P base a1
      ⟨updRec a1 s.anim_ll, false, s.anim_run_round, false⟩ := by
    refine mid_updRec h hid1 hrr1 rfl rfl
  exact mid_updRec h1 hid2 hrr2 hpar hll

theorem mid_upd3 {rid : Nat} {P : Bool} {base : List AnimRec}
    {a a1 a2 a3 : AnimRec} {s s' : AnimState} (h : MidInv rid P base a s)
    (hid1 : a1.id = rid) (hrr1 : a1.run_round = P)
    (hid2 : a2.id = rid) (hrr2 : a2.run_round = P)
    (hid3 : a3.id = rid) (hrr3 : a3.run_round = P)
    (hpar : s'.anim_run_round = s.anim_run_round)
    (hll : s'.anim_ll = updRec a3 (updRec a2 (updRec a1 s.anim_ll))) :
    MidInv rid P base a3 s' := by
  have h2 : MidInv rid P base a2
      ⟨updRec a2 (updRec a1 s.anim_ll), false, s.anim_run_round, false⟩ := by
    refine mid_upd2 h hid1 hrr1 hid2 hrr2 rfl rfl
  exact mid_updRec h2 hid3 hrr3 hpar hll

/-- The per-iteration guarantee of the `anim_timer` loop body. -/
theorem anim_timer_step_post (env : Env) (fuel now : Nat) (r : AnimRec)
    (s0 s1 : AnimState) (tr1 : List Ev)
    (hr : r ∈ s0.anim_ll)
    (h : anim_timer_step env fuel now r s0 = some (s1, tr1)) :
    StepPost r s0 s1 tr1 := by
  simp only [anim_timer_step] at h
  split at h
  case isFalse hpend =>
    -- the record already ran this round: only last_timer_run is refreshed
    have hpe : r.run_round = s0.anim_run_round := by
      by_cases hx : r.run_round = s0.anim_run_round
      · exact hx
      · exact absurd hx (by simpa using fun hc => hpend hc)
    injection h with h
    injection h with hs1 htr
    refine ⟨?_, ?_, ?_, ?_, ?_, ?_⟩
    · rw [← hs1]
    · rw [← hs1]
      simp only [idsOf_updRec]
      exact List.Sublist.refl _
    · intro id
      rw [← htr]
      rw [if_neg (fun hc => hc.1 hpe)]
      rfl
    · intro r' hr' hrid
      rw [← hs1] at hr'
      rcases mem_updRec hr' with he | ⟨_, hne⟩
      · rw [he]
        exact hpe
      · exact absurd hrid hne
    · intro r' hr' hne
      rw [← hs1] at hr'
      rcases mem_updRec hr' with he | ⟨hm, _⟩
      · exact absurd (he ▸ rfl) hne
      · exact hm
    · intro r' hr' _
      rw [← hs1] at hr'
      rcases mem_updRec hr' with he | ⟨hm, _⟩
      · exact ⟨r, hr, by rw [he], by rw [he]⟩
      · exact ⟨r', hm, rfl, rfl⟩
  case isTrue hpend =>
    have hpe : r.run_round ≠ s0.anim_run_round := by simpa using hpend
    suffices hK : (∃ aF, MidInv r.id s0.anim_run_round s0.anim_ll aF s1) ∧
        (∃ tl, tr1 = Ev.advanced r.id :: tl ∧ ∀ e ∈ tl, isAdvEv e = false) by
      obtain ⟨⟨aF, hmidF⟩, tl, htl, hnoadv⟩ := hK
      refine ⟨hmidF.1, hmidF.2.1, ?_, ?_, hmidF.2.2.2.2.2, ?_⟩
      · intro id
        rw [htl, advCount_cons_adv hnoadv]
        by_cases hid : id = r.id
        · rw [if_pos hid, if_pos ⟨hpe, hid⟩]
        · rw [if_neg hid, if_neg (fun hc => hid hc.2)]
      · intro r' hr' hrid
        have he := hmidF.2.2.2.2.1 r' hr' hrid
        rw [he]
        exact hmidF.2.2.2.1
      · intro r' hr' hnc
        have hne : r'.id ≠ r.id := fun he => hnc ⟨hpe, he⟩
        exact ⟨r', hmidF.2.2.2.2.2 r' hr' hne, rfl, rfl⟩
    split at h
    next heq => exact Option.noConfusion h
    next a4 s4 trStart heq =>
      have hKs : MidInv r.id s0.anim_run_round s0.anim_ll a4 s4 ∧
          ∀ e ∈ trStart, isAdvEv e = false := by
        by_cases hsc : r.start_cb_called = false ∧ r.act_time ≤ 0 ∧
            0 ≤ r.act_time + ((now - r.last_timer_run : Nat) : Int)
        · rw [if_pos hsc] at heq
          by_cases hofs : r.early_apply = false ∧ r.get_value_cb.isSome = true
          · rw [if_pos hofs] at heq
            cases hg : r.get_value_cb with
            | some c =>
              rw [hg] at heq
              simp only [] at heq
              split at heq
              next heq3 => exact Option.noConfusion heq
              next s3 trS heq3 =>
                simp only [Option.some.injEq, Prod.mk.injEq] at heq
                obtain ⟨ha4, hs4, htrS⟩ := heq
                subst ha4
                subst hs4
                subst htrS
                have hA : MidInv r.id s0.anim_run_round s0.anim_ll
                    ({ r with get_value_cb := some c,
                              last_timer_run := now,
                              run_round := s0.anim_run_round })
                    ⟨updRec ({ r with get_value_cb := some c,
                                      last_timer_run := now,
                                      run_round := s0.anim_run_round })
                        (updRec ({ r with get_value_cb := some c,
                                          last_timer_run := now })
                          s0.anim_ll),
                      false, s0.anim_run_round, s0.timer_paused⟩ :=
                  by refine mid_init2 ?_ ?_ ?_ ?_ rfl <;> rfl
                have hB : MidInv r.id s0.anim_run_round s0.anim_ll
                    ({ r with
                        get_value_cb := some c,
                        start_value := r.start_value + env.getValue c,
                        end_value := r.end_value + env.getValue c,
                        run_round := s0.anim_run_round,
                        last_timer_run := now })
                    ⟨updRec
                        ({ r with
                            get_value_cb := some c,
                            start_value := r.start_value + env.getValue c,
                            end_value := r.end_value + env.getValue c,
                            run_round := s0.anim_run_round,
                            last_timer_run := now })
                        (updRec ({ r with get_value_cb := some c,
                                          last_timer_run := now,
                                          run_round := s0.anim_run_round })
                          (updRec ({ r with get_value_cb := some c,
                                            last_timer_run := now })
                            s0.anim_ll)),
                      false, s0.anim_run_round, s0.timer_paused⟩ :=
                  by refine mid_updRec hA ?_ ?_ ?_ rfl <;> rfl
                have hC := mid_runCb heq3 hB
                constructor
                · refine mid_updRec hC ?_ ?_ ?_ ?_ <;> rfl
                · intro e he
                  rcases List.mem_append.mp he with he | he
                  · have he' : e = Ev.getValueCb r.id := by simpa using he
                    rw [he']
                    rfl
                  · exact runCb_no_adv heq3 rfl e he
            | none =>
              rw [hg] at hofs
              exact absurd hofs.2 (by simp)
          · rw [if_neg hofs] at heq
            split at heq
            next heq3 => exact Option.noConfusion heq
            next s3 trS heq3 =>
              simp only [Option.some.injEq, Prod.mk.injEq] at heq
              obtain ⟨ha4, hs4, htrS⟩ := heq
              subst ha4
              subst hs4
              subst htrS
              have hA : MidInv r.id s0.anim_run_round s0.anim_ll
                  ({ r with last_timer_run := now,
                            run_round := s0.anim_run_round })
                  ⟨updRec ({ r with last_timer_run := now,
                                    run_round := s0.anim_run_round })
                      (updRec ({ r with last_timer_run := now })
                        s0.anim_ll),
                    false, s0.anim_run_round, s0.timer_paused⟩ :=
                by refine mid_init2 ?_ ?_ ?_ ?_ rfl <;> rfl
              have hC := mid_runCb heq3 hA
              constructor
              · refine mid_updRec hC ?_ ?_ ?_ ?_ <;> rfl
              · intro e he
                rcases List.mem_append.mp he with he | he
                · exact absurd he (List.not_mem_nil e)
                · exact runCb_no_adv heq3 rfl e he
        · rw [if_neg hsc] at heq
          simp only [Option.some.injEq, Prod.mk.injEq] at heq
          obtain ⟨ha4, hs4, htrS⟩ := heq
          subst ha4
          subst hs4
          subst htrS
          constructor
          · refine mid_init2 ?_ ?_ ?_ ?_ rfl <;> rfl
          · intro e he
            cases he
      obtain ⟨hmid4, hnoadv4⟩ := hKs
      clear heq
      by_cases hup : (0:Int) ≤ a4.act_time + ((now - r.last_timer_run : Nat) : Int)
      case neg =>
        rw [if_neg hup] at h
        injection h with h
        injection h with hs1 htr
        refine ⟨⟨{ a4 with act_time := a4.act_time
            + ((now - r.last_timer_run : Nat) : Int) }, ?_⟩,
          trStart, htr.symm, hnoadv4⟩
        refine mid_updRec hmid4 ?_ ?_ ?_ ?_
        · exact hmid4.2.2.1
        · exact hmid4.2.2.2.1
        · rw [← hs1]
        · rw [← hs1]
      case pos =>
        rw [if_pos hup] at h
        split at h
        next heq2 => exact Option.noConfusion h
        next a8 s8 trExec heq2 =>
          have hKe : MidInv r.id s0.anim_run_round s0.anim_ll a8 s8 ∧
              ∀ e ∈ trExec, isAdvEv e = false := by
            split at heq2
            case isTrue hclamp =>
              split at heq2
              case isTrue hne2 =>
                split at heq2
                next c heqc =>
                  split at heq2
                  next heq4 => exact Option.noConfusion heq2
                  next s8x trc heq4 =>
                    simp only [Option.some.injEq, Prod.mk.injEq] at heq2
                    obtain ⟨ha8, hs8, htre⟩ := heq2
                    subst ha8
                    subst hs8
                    subst htre
                    have hmid7 : MidInv r.id s0.anim_run_round s0.anim_ll
                        ({ ({ a4 with act_time := a4.time }) with
                            current_value :=
                              evalPath ({ a4 with act_time := a4.time }).path_cb
                                ({ a4 with act_time := a4.time }) })
                        ⟨updRec
                            ({ ({ a4 with act_time := a4.time }) with
                            current_value :=
                              evalPath ({ a4 with act_time := a4.time }).path_cb
                                ({ a4 with act_time := a4.time }) })
                            (updRec ({ a4 with act_time := a4.time })
                              (updRec { a4 with act_time := a4.act_time + ((now - r.last_timer_run : Nat) : Int) } s4.anim_ll)),
                          s4.anim_list_changed, s4.anim_run_round, s4.timer_paused⟩ := by
                      refine mid_upd3 hmid4 ?_ ?_ ?_ ?_ ?_ ?_ rfl rfl <;>
                        first
                          | exact hmid4.2.2.1
                          | exact hmid4.2.2.2.1
                    obtain ⟨hmidD, hnoadvD⟩ := mid_delops heq4 hmid7
                    refine ⟨hmidD, ?_⟩
                    intro e he
                    cases he with
                    | head => rfl
                    | tail _ he2 => exact hnoadvD e he2
                next heqc =>
                  simp only [Option.some.injEq, Prod.mk.injEq] at heq2
                  obtain ⟨ha8, hs8, htre⟩ := heq2
                  subst ha8
                  subst hs8
                  subst htre
                  constructor
                  · refine mid_upd3 hmid4 ?_ ?_ ?_ ?_ ?_ ?_ rfl rfl <;>
                      first
                        | exact hmid4.2.2.1
                        | exact hmid4.2.2.2.1
                  · intro e he
                    cases he
              case isFalse hne2 =>
                simp only [Option.some.injEq, Prod.mk.injEq] at heq2
                obtain ⟨ha8, hs8, htre⟩ := heq2
                subst ha8
                subst hs8
                subst htre
                constructor
                · refine mid_upd2 hmid4 ?_ ?_ ?_ ?_ rfl rfl <;>
                    first
                      | exact hmid4.2.2.1
                      | exact hmid4.2.2.2.1
                · intro e he
                  cases he
            case isFalse hclamp =>
              split at heq2
              case isTrue hne2 =>
                split at heq2
                next c heqc =>
                  split at heq2
                  next heq4 => exact Option.noConfusion heq2
                  next s8x trc heq4 =>
                    simp only [Option.some.injEq, Prod.mk.injEq] at heq2
                    obtain ⟨ha8, hs8, htre⟩ := heq2
                    subst ha8
                    subst hs8
                    subst htre
                    have hmid7 : MidInv r.id s0.anim_run_round s0.anim_ll
                        ({ ({ a4 with act_time := a4.act_time + ((now - r.last_timer_run : Nat) : Int) }) with
                            current_value :=
                              evalPath ({ a4 with act_time := a4.act_time + ((now - r.last_timer_run : Nat) : Int) }).path_cb
                                ({ a4 with act_time := a4.act_time + ((now - r.last_timer_run : Nat) : Int) }) })
                        ⟨updRec
                            ({ ({ a4 with act_time := a4.act_time + ((now - r.last_timer_run : Nat) : Int) }) with
                            current_value :=
                              evalPath ({ a4 with act_time := a4.act_time + ((now - r.last_timer_run : Nat) : Int) }).path_cb
                                ({ a4 with act_time := a4.act_time + ((now - r.last_timer_run : Nat) : Int) }) })
                            (updRec ({ a4 with act_time := a4.act_time + ((now - r.last_timer_run : Nat) : Int) })
                              (updRec { a4 with act_time := a4.act_time + ((now - r.last_timer_run : Nat) : Int) } s4.anim_ll)),
                          s4.anim_list_changed, s4.anim_run_round, s4.timer_paused⟩ := by
                      refine mid_upd3 hmid4 ?_ ?_ ?_ ?_ ?_ ?_ rfl rfl <;>
                        first
                          | exact hmid4.2.2.1
                          | exact hmid4.2.2.2.1
                    obtain ⟨hmidD, hnoadvD⟩ := mid_delops heq4 hmid7
                    refine ⟨hmidD, ?_⟩
                    intro e he
                    cases he with
                    | head => rfl
                    | tail _ he2 => exact hnoadvD e he2
                next heqc =>
                  simp only [Option.some.injEq, Prod.mk.injEq] at heq2
                  obtain ⟨ha8, hs8, htre⟩ := heq2
                  subst ha8
                  subst hs8
                  subst htre
                  constructor
                  · refine mid_upd3 hmid4 ?_ ?_ ?_ ?_ ?_ ?_ rfl rfl <;>
                      first
                        | exact hmid4.2.2.1
                        | exact hmid4.2.2.2.1
                  · intro e he
                    cases he
              case isFalse hne2 =>
                simp only [Option.some.injEq, Prod.mk.injEq] at heq2
                obtain ⟨ha8, hs8, htre⟩ := heq2
                subst ha8
                subst hs8
                subst htre
                constructor
                · refine mid_upd2 hmid4 ?_ ?_ ?_ ?_ rfl rfl <;>
                    first
                      | exact hmid4.2.2.1
                      | exact hmid4.2.2.2.1
                · intro e he
                  cases he
          obtain ⟨hmid8, hnoadv8⟩ := hKe
          clear heq2
          by_cases hfin : a8.time ≤ a8.act_time
          case neg =>
            rw [if_neg hfin] at h
            injection h with h
            injection h with hs1 htr
            subst hs1
            refine ⟨⟨a8, hmid8⟩, trStart ++ trExec, htr.symm, ?_⟩
            intro e he
            rcases List.mem_append.mp he with he | he
            · exact hnoadv4 e he
            · exact hnoadv8 e he
          case pos =>
            rw [if_pos hfin] at h
            split at h
            next heq3 => exact Option.noConfusion h
            next s9 trH heq3 =>
              injection h with h
              injection h with hs1 htr
              subst hs1
              obtain ⟨hmid9, hnoadvH⟩ := handler_tick_post hmid8 heq3
              refine ⟨⟨handlerRestartRec (decRepeat a8), hmid9⟩,
                trStart ++ trExec ++ trH, htr.symm, ?_⟩
              intro e he
              rcases List.mem_append.mp he with he | he
              · rcases List.mem_append.mp he with he | he
                · exact hnoadv4 e he
                · exact hnoadv8 e he
              · exact hnoadvH e he


/-- The cumulative guarantee of the `anim_timer` while-loop: the parity is
never touched, no identities appear, an identity whose registry copies are
all already stamped is never advanced, no identity is advanced twice, on
exit every surviving record is stamped provided every record off-cursor
was, and a record the loop never advanced kept its `run_round`. -/
theorem anim_timer_loop_post (env : Env) :
    ∀ (fuel now : Nat) (cur : List Nat) (s s' : AnimState) (tr : List Ev),
    (idsOf s.anim_ll).Nodup →
    anim_timer_loop env fuel now cur s = some (s', tr) →
    s'.anim_run_round = s.anim_run_round ∧
    (idsOf s'.anim_ll).Sublist (idsOf s.anim_ll) ∧
    (∀ id, (∀ r' ∈ s.anim_ll, r'.id = id → r'.run_round = s.anim_run_round) →
        advCount id tr = 0) ∧
    (∀ id, advCount id tr ≤ 1) ∧
    ((∀ r0 ∈ s.anim_ll, r0.id ∉ cur → r0.run_round = s.anim_run_round) →
        ∀ r' ∈ s'.anim_ll, r'.run_round = s.anim_run_round) ∧
    (∀ r' ∈ s'.anim_ll, advCount r'.id tr = 0 →
        ∃ r0 ∈ s.anim_ll, r0.id = r'.id ∧ r0.run_round = r'.run_round) := by
  intro fuel
  induction fuel with
  | zero =>
    intro now cur s s' tr hn h
    exact Option.noConfusion h
  | succ n ih =>
    intro now cur s s' tr hn h
    cases cur with
    | nil =>
      simp only [anim_timer_loop, Option.some.injEq, Prod.mk.injEq] at h
      obtain ⟨hs, ht⟩ := h
      subst hs
      subst ht
      refine ⟨rfl, List.Sublist.refl _, fun id _ => rfl, fun id => Nat.zero_le _,
        ?_, ?_⟩
      · intro hpre r' hr'
        exact hpre r' hr' (List.not_mem_nil _)
      · intro r' hr' _
        exact ⟨r', hr', rfl, rfl⟩
    | cons id rest =>
      simp only [anim_timer_loop] at h
      cases hfind : s.anim_ll.find? (fun r => r.id == id) with
      | none =>
        rw [hfind] at h
        obtain ⟨c1, c2, c3, c4, c5, c6⟩ := ih now rest s s' tr hn h
        refine ⟨c1, c2, c3, c4, ?_, c6⟩
        intro hpre r' hr'
        refine c5 ?_ r' hr'
        intro r0 hr0 hnot
        refine hpre r0 hr0 ?_
        intro hmem
        cases hmem with
        | head => exact find?_id_eq_none hfind r0 hr0 rfl
        | tail _ h2 => exact hnot h2
      | some r =>
        rw [hfind] at h
        simp only [] at h
        cases hstep : anim_timer_step env n now r s with
        | none =>
          rw [hstep] at h
          exact Option.noConfusion h
        | some o1 =>
          obtain ⟨s1, tr1⟩ := o1
          rw [hstep] at h
          simp only [] at h
          obtain ⟨hrm, hrid⟩ := find?_id_eq hfind
          have SP := anim_timer_step_post env n now r s s1 tr1 hrm hstep
          have hn1 : (idsOf s1.anim_ll).Nodup := SP.idsSub.nodup hn
          cases hloop : anim_timer_loop env n now
              (if s1.anim_list_changed then idsOf s1.anim_ll else rest) s1 with
          | none =>
            rw [hloop] at h
            exact Option.noConfusion h
          | some o2 =>
            obtain ⟨s2, tr2⟩ := o2
            rw [hloop] at h
            simp only [Option.some.injEq, Prod.mk.injEq] at h
            obtain ⟨hs', htr⟩ := h
            subst hs'
            subst htr
            obtain ⟨c1, c2, c3, c4, c5, c6⟩ := ih now _ s1 s2 tr2 hn1 hloop
            refine ⟨c1.trans SP.parity, c2.trans SP.idsSub, ?_, ?_, ?_, ?_⟩
            · intro idX hall
              rw [advCount_append]
              have h1 : advCount idX tr1 = 0 := by
                rw [SP.adv]
                rw [if_neg]
                rintro ⟨hp, hid⟩
                exact hp (hall r hrm hid.symm)
              have h2 : advCount idX tr2 = 0 := by
                refine c3 idX ?_
                intro r' hr' hrid'
                rw [SP.parity]
                by_cases hcase : r'.id = r.id
                · exact SP.stamped r' hr' hcase
                · exact hall r' (SP.survivors r' hr' hcase) hrid'
              rw [h1, h2]
            · intro idX
              rw [advCount_append]
              by_cases hidp : r.run_round ≠ s.anim_run_round ∧ idX = r.id
              · have h1 : advCount idX tr1 = 1 := by
                  rw [SP.adv, if_pos hidp]
                have h2 : advCount idX tr2 = 0 := by
                  refine c3 idX ?_
                  intro r' hr' hrid'
                  rw [SP.parity]
                  refine SP.stamped r' hr' ?_
                  rw [hrid', hidp.2]
                rw [h1, h2]
              · have h1 : advCount idX tr1 = 0 := by
                  rw [SP.adv, if_neg hidp]
                rw [h1]
                simpa using c4 idX
            · intro hpre r' hr'
              have hres := c5 ?_ r' hr'
              · rw [← SP.parity]
                exact hres
              intro r0 hr0 hnot
              by_cases hflag : s1.anim_list_changed = true
              · rw [if_pos hflag] at hnot
                exact absurd (mem_idsOf hr0) hnot
              · rw [if_neg hflag] at hnot
                rw [SP.parity]
                by_cases hid0 : r0.id = r.id
                · exact SP.stamped r0 hr0 hid0
                · refine hpre r0 (SP.survivors r0 hr0 hid0) ?_
                  intro hmem2
                  cases hmem2 with
                  | head => exact hid0 hrid.symm
                  | tail _ h2 => exact hnot h2
            · intro r' hr' hz
              rw [advCount_append] at hz
              have hz1 : advCount r'.id tr1 = 0 := by omega
              have hz2 : advCount r'.id tr2 = 0 := by omega
              obtain ⟨r1, hr1, hid1, hrr1⟩ := c6 r' hr' hz2
              have hnc : ¬(r.run_round ≠ s.anim_run_round ∧ r1.id = r.id) := by
                rintro ⟨hp, hideq⟩
                have := SP.adv r1.id
                rw [if_pos ⟨hp, hideq⟩] at this
                rw [hid1] at this
                rw [hz1] at this
                exact Nat.noConfusion this
              obtain ⟨r0, hr0, hid0, hrr0⟩ := SP.unmoved r1 hr1 hnc
              exact ⟨r0, hr0, hid0.trans hid1, hrr0.trans hrr1⟩


/-- C1: during one `anim_timer` tick — whatever registry removals the
callbacks perform reentrantly — no record is advanced twice, and every
record pending at the start of the tick (stamped with the previous
run-parity) that survives the tick is advanced exactly once. -/
theorem C1_tick_advances_once (env : Env) (fuel now : Nat)
    (s s' : AnimState) (tr : List Ev)
    (hn : (idsOf s.anim_ll).Nodup)
    (h : anim_timer env fuel now s = some (s', tr)) :
    (∀ id, advCount id tr ≤ 1) ∧
    (∀ r ∈ s.anim_ll, r.run_round = s.anim_run_round →
      (∃ r' ∈ s'.anim_ll, r'.id = r.id) → advCount r.id tr = 1) := by
  simp only [anim_timer] at h
  obtain ⟨c1, c2, c3, c4, c5, c6⟩ :=
    anim_timer_loop_post env fuel now (idsOf s.anim_ll)
      ⟨s.anim_ll, s.anim_list_changed, !s.anim_run_round, s.timer_paused⟩
      s' tr hn h
  refine ⟨c4, ?_⟩
  rintro r hrm hpend ⟨r', hr', hid'⟩
  have hle := c4 r.id
  by_cases h0 : advCount r.id tr = 0
  · exfalso
    have hstamp : r'.run_round = !s.anim_run_round := by
      refine c5 ?_ r' hr'
      intro r0 hr0 hnot
      exact absurd (mem_idsOf hr0) hnot
    obtain ⟨r0, hr0, hid0, hrr0⟩ := c6 r' hr' (by rw [hid']; exact h0)
    have hreq : r0 = r := eq_of_mem_of_nodup_ids hn hr0 hrm (hid0.trans hid')
    have hcontra : s.anim_run_round = !s.anim_run_round := by
      conv_lhs => rw [← hpend]
      rw [← hreq, hrr0, hstamp]
    simp at hcontra
  · omega


/-- Concrete data for C1's witness: a single mid-flight linear animation,
ticked once. -/
def envC1 : Env := ⟨fun _ => [], fun _ => 0⟩

def aC1 : AnimRec :=
  { lv_anim_init with
      id := 3, var := some 9, time := 100, act_time := 10,
      start_cb_called := true }

def sC1 : AnimState := ⟨[aC1], false, false, false⟩

def sC1' : AnimState :=
  ⟨[{ aC1 with
        act_time := 15, current_value := 14, run_round := true,
        last_timer_run := 5 }], false, true, false⟩

theorem C1_tick_advances_once_witness : advCount 3 [Ev.advanced 3] = 1 :=
  (C1_tick_advances_once envC1 5 5 sC1 sC1' [Ev.advanced 3]
      (by decide) (by decide)).2
    aC1 (by decide) (by decide) (by decide)

end LvAnim
